import Mathlib

/-!
Verification of the TTK `TopologicalCompression` core
(src/core/base/topologicalCompression/TopologicalCompression.cpp).

Shallow embedding conventions:
* C `int` values are modelled as Lean `Int`.  All bit-level operations the
  source performs on `int` (`<<`, `>>`, `|`, `&`) are modelled on the 32-bit
  two's-complement bit pattern: `u32` maps an `Int` to its low 32 bits as a
  `Nat`, `i32` maps a 32-bit pattern back to the signed value in
  `[-2^31, 2^31)`.  Where C++ leaves shift overflow undefined the embedding
  uses the two's-complement wrap-around that the surrounding code relies on
  (the spec's §9 "manual sign-bit masking" discussion documents this intent).
* The byte stream is a list of typed items (`int32` / `float64`); `Read<T>` /
  `Write` consume / append one item and account 4 or 8 bytes.  IEEE doubles
  are only ever copied and order-compared by this code (never used
  arithmetically), so their payload is modelled by `Int`, an ordered type.
* The two loops of the segmentation codec are modelled with explicit fuel;
  `none` models a run that does not terminate within the fuel (or a read
  past the end of the stream).  Top-level wrappers supply fuel that is proved
  sufficient for all reachable configurations.
-/

/-- Low 32 bits of an integer, as the unsigned bit pattern. -/
def u32 (a : Int) : Nat := (a % 4294967296).toNat

/-- Signed 32-bit value (two's complement) of a bit pattern. -/
def i32 (n : Nat) : Int :=
  if n % 4294967296 < 2147483648 then (n % 4294967296 : Nat)
  else (n % 4294967296 : Nat) - 4294967296

/-- C `<<` on 32-bit `int`, two's-complement wrap-around semantics. -/
def shlInt (a : Int) (k : Nat) : Int := i32 (u32 a <<< k)

/-- C `>>` on 32-bit `int`: arithmetic shift right (floor division by `2^k`). -/
def asrInt (a : Int) (k : Nat) : Int := Int.fdiv a (2 ^ k)

/-- C `|` on 32-bit `int`. -/
def orInt (a b : Int) : Int := i32 (u32 a ||| u32 b)

/-- C `&` on 32-bit `int`. -/
def andInt (a b : Int) : Int := i32 (u32 a &&& u32 b)

namespace ttk

/-- The `while(val > 1) { val >>= 1; ret++; }` loop of `ttk::TopologicalCompression::log2`
(`ret` is the accumulator).  Only entered with positive `val`, so the shift is
plain halving.  The loop runs at most `val` times, so structural recursion on
a fuel initialized to `val` computes it exactly (`ttk.log2Loop_eq`). -/
def log2Loop : Nat → Nat → Nat → Nat
  | 0, _, ret => ret
  | fuel + 1, v, ret => if 1 < v then log2Loop fuel (v / 2) (ret + 1) else ret

/-- `ttk::TopologicalCompression::log2` (TopologicalCompression.cpp:139-150):
returns `UINT_MAX` for 0, otherwise the floor base-2 logarithm for positive
input; for negative input the `while (val > 1)` loop never runs and 0 is
returned. -/
def log2 (val : Int) : Nat :=
  if val = 0 then 4294967295
  else if val = 1 then 0
  else if 1 < val then log2Loop val.toNat val.toNat 0
  else 0

/-- The bit width `numberOfBitsPerSegment = log2(numberOfSegments) + 1`,
computed in C as `unsigned int` (hence the wrap at `2^32`; for
`numberOfSegments == 0`, `log2` returns `UINT_MAX` and the width wraps to 0).
The same expression is evaluated by `WriteCompactSegmentation`
(TopologicalCompression.cpp:268) and by `ReadCompactSegmentation`
(TopologicalCompression.cpp:168). -/
def bitsPerSegment (numberOfSegments : Int) : Nat :=
  (log2 numberOfSegments + 1) % 4294967296

/-- One item of the sequential byte stream.  `float64` payloads are modelled
by `Int` because the codec only copies and order-compares doubles. -/
inductive StreamItem where
  | int32 : Int → StreamItem
  | float64 : Int → StreamItem
deriving DecidableEq

/-- `Read<int>`: consume one 4-byte item; fails if the stream is exhausted
or the next item is not a 4-byte field. -/
def readInt : List StreamItem → Option (Int × List StreamItem)
  | StreamItem.int32 v :: rest => some (v, rest)
  | _ => none

/-- `Read<double>`: consume one 8-byte item. -/
def readDouble : List StreamItem → Option (Int × List StreamItem)
  | StreamItem.float64 v :: rest => some (v, rest)
  | _ => none

/-- `segmentation[currentCell]`.  The source indexes the vector without a
bound check and its own comment (TopologicalCompression.cpp:287-288) notes the
read is out of bounds once `currentCell` reaches `segmentation.size()`; the
value obtained there is unspecified, so the embedding takes it from an
arbitrary function `pad`, universally quantified in every theorem. -/
def segGet (seg : List Int) (pad : Nat → Int) (i : Nat) : Int :=
  match seg.get? i with
  | some v => v
  | none => pad i

/-- The inner `while (offset + numberOfBitsPerSegment <= 32)` loop of
`WriteCompactSegmentation` (TopologicalCompression.cpp:285-306) over one
container word.  Returns `(word, currentCell, offset, maskerRank)`. -/
def writeSegLoop (w : Nat) (segf : Nat → Int) (cell : Nat) (offset masker : Nat)
    (word : Int) (fuel : Nat) : Option (Int × Nat × Nat × Nat) :=
  match fuel with
  | 0 => none
  | fuel + 1 =>
    if offset + w ≤ 32 then
      let currentSegment := segf cell
      if masker ≠ 0 then
        writeSegLoop w segf (cell + 1) offset 0
          (orInt word (asrInt currentSegment (w - offset))) fuel
      else
        writeSegLoop w segf (cell + 1) (offset + w) masker
          (orInt word (shlInt currentSegment offset)) fuel
    else some (word, cell, offset, masker)

/-- The outer `while (currentCell < numberOfVertices)` loop of
`WriteCompactSegmentation` (TopologicalCompression.cpp:278-336): one iteration
builds one container word (inner loop, then either the final flush when all
cells are consumed, or the split-value block of lines 317-331). -/
def writeSegOuter (w : Nat) (seg : List Int) (pad : Nat → Int) (N : Int)
    (cell offset masker : Nat) (bytes : Int) (out : List StreamItem)
    (fuel : Nat) : Option (Int × List StreamItem) :=
  match fuel with
  | 0 => none
  | fuel + 1 =>
    if (cell : Int) < N then
      match writeSegLoop w (segGet seg pad) cell offset masker 0 34 with
      | none => none
      | some (word, cell1, offset1, masker1) =>
        if (cell1 : Int) ≥ N then
          some (bytes + 4, out ++ [StreamItem.int32 word])
        else
          let currentSegment := segGet seg pad cell1
          let word2 := if offset1 = 32 then word
            else orInt word (shlInt currentSegment offset1)
          let masker2 := if offset1 = 32 then masker1 else 32 - offset1
          let offset2 := if offset1 = 32 then offset1 else offset1 + w
          writeSegOuter w seg pad N cell1 (offset2 % 32) masker2 (bytes + 4)
            (out ++ [StreamItem.int32 word2]) fuel
    else some (bytes, out)

/-- `ttk::TopologicalCompression::WriteCompactSegmentation`
(TopologicalCompression.cpp:258-339).  Returns the value returned by the
function (bytes written, or -3) together with the items appended to the
stream. -/
def WriteCompactSegmentation (seg : List Int) (pad : Nat → Int)
    (numberOfVertices numberOfSegments : Int) : Option (Int × List StreamItem) :=
  let numberOfBitsPerSegment := bitsPerSegment numberOfSegments
  if 32 < numberOfBitsPerSegment then some (-3, [])
  else
    writeSegOuter numberOfBitsPerSegment seg pad numberOfVertices 0 0 0 0 []
      (33 * (numberOfVertices.toNat + 2))

/-- The inner `while (offset + numberOfBitsPerSegment <= 32)` loop of
`ReadCompactSegmentation` (TopologicalCompression.cpp:193-239) over one
container word: extracts the fields of `word`, pushing decoded values.
Returns `(pushed values, offset, maskerRank)`. -/
def readSegLoop (w : Nat) (word old : Int) (offset masker : Nat)
    (fuel : Nat) : Option (List Int × Nat × Nat) :=
  match fuel with
  | 0 => none
  | fuel + 1 =>
    if offset + w ≤ 32 then
      if masker = 0 then
        let c1 := shlInt word (32 - offset - w)
        let v := if c1 < 0 then
            orInt (asrInt (andInt c1 2147483647) (32 - w)) (shlInt 1 (w - 1))
          else asrInt c1 (32 - w)
        match readSegLoop w word old (offset + w) 0 fuel with
        | none => none
        | some (pushed, o, m) => some (v :: pushed, o, m)
      else
        let c1 := shlInt word (32 - offset)
        let nextSegment := if c1 < 0 then
            orInt (asrInt (andInt c1 2147483647) (32 - w)) (shlInt 1 (w - 1))
          else asrInt c1 (32 - w)
        let oldPart := if old < 0 then
            orInt (asrInt (andInt old 2147483647) masker) (shlInt 1 (32 - masker - 1))
          else asrInt old masker
        let v := orInt nextSegment oldPart
        match readSegLoop w word old offset 0 fuel with
        | none => none
        | some (pushed, o, m) => some (v :: pushed, o, m)
    else some ([], offset, masker)

/-- The outer `while (currentCell < numberOfVertices)` loop of
`ReadCompactSegmentation` (TopologicalCompression.cpp:187-252): one iteration
reads one container word, decodes it (inner loop), then runs the
"overlapping mask into next container" block of lines 242-251. -/
def readSegOuter (w : Nat) (N : Int) (cell offset masker : Nat) (old : Int)
    (bytes : Int) (acc : List Int) (stream : List StreamItem)
    (fuel : Nat) : Option (Int × List Int × List StreamItem) :=
  match fuel with
  | 0 => none
  | fuel + 1 =>
    if (cell : Int) < N then
      match readInt stream with
      | none => none
      | some (compressedInt, rest) =>
        match readSegLoop w compressedInt old offset masker 34 with
        | none => none
        | some (pushed, offset1, _) =>
          let masker2 := if offset1 = 32 then 0 else offset1
          let offset2 := if offset1 = 32 then offset1 else offset1 + w
          readSegOuter w N (cell + pushed.length) (offset2 % 32) masker2
            compressedInt (bytes + 4) (acc ++ pushed) rest fuel
    else some (bytes, acc, stream)

/-- Result of `ReadCompactSegmentation`: the returned `int` (byte count, or
-2 / -3), the values appended to `segmentation`, the two out-parameters, and
the unread remainder of the stream. -/
structure ReadSegResult where
  ret : Int
  segmentation : List Int
  numberOfVertices : Int
  numberOfSegments : Int
  rest : List StreamItem
deriving DecidableEq

/-- `ttk::TopologicalCompression::ReadCompactSegmentation`
(TopologicalCompression.cpp:154-255), with the `TTK_ENABLE_KAMIKAZE` guard
compiled in (the default build), so a zero bit width returns -2. -/
def ReadCompactSegmentation (stream : List StreamItem) : Option ReadSegResult :=
  match readInt stream with
  | none => none
  | some (numberOfVertices, r1) =>
    match readInt r1 with
    | none => none
    | some (numberOfSegments, r2) =>
      let numberOfBitsPerSegment := bitsPerSegment numberOfSegments
      if numberOfBitsPerSegment = 0 then
        some ⟨-2, [], numberOfVertices, numberOfSegments, r2⟩
      else if 32 < numberOfBitsPerSegment then
        some ⟨-3, [], numberOfVertices, numberOfSegments, r2⟩
      else
        match readSegOuter numberOfBitsPerSegment numberOfVertices 0 0 0 0 8 [] r2
            (33 * (numberOfVertices.toNat + 2)) with
        | none => none
        | some (bytes, seg, rest) =>
          some ⟨bytes, seg, numberOfVertices, numberOfSegments, rest⟩

/-- The mapping-write loop of `WritePersistenceIndex`
(TopologicalCompression.cpp:419-428): for each `(value, vertexId)` tuple,
write the `int` vertexId then the `double` value. -/
def writeMappingLoop (mapping : List (Int × Int)) (bytes : Int)
    (out : List StreamItem) : Int × List StreamItem :=
  match mapping with
  | [] => (bytes, out)
  | t :: rest =>
    writeMappingLoop rest (bytes + 4 + 8)
      (out ++ [StreamItem.int32 t.2, StreamItem.float64 t.1])

/-- The constraints-write loop of `WritePersistenceIndex`
(TopologicalCompression.cpp:434-448): for each `(vertexId, value, vertexType)`
tuple, write `int`, `double`, `int`. -/
def writeConstraintsLoop (constraints : List (Int × Int × Int)) (bytes : Int)
    (out : List StreamItem) : Int × List StreamItem :=
  match constraints with
  | [] => (bytes, out)
  | t :: rest =>
    writeConstraintsLoop rest (bytes + 4 + 8 + 4)
      (out ++ [StreamItem.int32 t.1, StreamItem.float64 t.2.1, StreamItem.int32 t.2.2])

/-- `ttk::TopologicalCompression::WritePersistenceIndex`
(TopologicalCompression.cpp:407-451).  Returns the byte count returned by the
function and the items appended to the stream. -/
def WritePersistenceIndex (mapping : List (Int × Int))
    (constraints : List (Int × Int × Int)) : Int × List StreamItem :=
  let s1 := writeMappingLoop mapping 4 [StreamItem.int32 (mapping.length : Int)]
  writeConstraintsLoop constraints (s1.1 + 4)
    (s1.2 ++ [StreamItem.int32 (constraints.length : Int)])

/-- The mapping-read loop of `ReadPersistenceIndex`
(TopologicalCompression.cpp:356-367): reads `(idv, value)` pairs, pushing
`(value, idv)` tuples in read order. -/
def readMappingLoop (n : Nat) (stream : List StreamItem)
    (acc : List (Int × Int)) (bytes : Int) :
    Option (List (Int × Int) × Int × List StreamItem) :=
  match n with
  | 0 => some (acc, bytes, stream)
  | n + 1 =>
    match readInt stream with
    | none => none
    | some (idv, s1) =>
      match readDouble s1 with
      | none => none
      | some (value, s2) => readMappingLoop n s2 (acc ++ [(value, idv)]) (bytes + 4 + 8)

/-- The constraints-read loop of `ReadPersistenceIndex`
(TopologicalCompression.cpp:377-402): reads `(idVertex, value, vertexType)`
triples; on the first iteration (`i == 0`) both `min` and `max` are set to the
value, afterwards they are widened. -/
def readConstraintsLoop (n : Nat) (i : Nat) (stream : List StreamItem)
    (acc : List (Int × Int × Int)) (mn mx : Int) (bytes : Int) :
    Option (List (Int × Int × Int) × Int × Int × Int × List StreamItem) :=
  match n with
  | 0 => some (acc, mn, mx, bytes, stream)
  | n + 1 =>
    match readInt stream with
    | none => none
    | some (idVertex, s1) =>
      match readDouble s1 with
      | none => none
      | some (value, s2) =>
        match readInt s2 with
        | none => none
        | some (vertexType, s3) =>
          let mn1 := if i = 0 then value else mn
          let mx1 := if i = 0 then value else mx
          let mn2 := if value < mn1 then value else mn1
          let mx2 := if mx1 < value then value else mx1
          readConstraintsLoop n (i + 1) s3 (acc ++ [(idVertex, value, vertexType)])
            mn2 mx2 (bytes + 4 + 8 + 4)

/-- The deterministic part of `ReadPersistenceIndex`
(TopologicalCompression.cpp:341-405): everything except the two `std::sort`
calls.  `mappingsRaw` is the mapping table in read order; `min` / `max` are
the by-reference out-parameters, whose incoming values `minIn` / `maxIn` are
kept when the constraint loop never assigns them. -/
structure ReadIndexRaw where
  mappingsRaw : List (Int × Int)
  constraints : List (Int × Int × Int)
  min : Int
  max : Int
  nbConstraints : Int
  ret : Int
  rest : List StreamItem
deriving DecidableEq

/-- `ReadPersistenceIndex` without the two sorts (see `ReadIndexRaw`). -/
def ReadPersistenceIndexRaw (stream : List StreamItem) (minIn maxIn : Int) :
    Option ReadIndexRaw :=
  match readInt stream with
  | none => none
  | some (mappingSize, s1) =>
    match readMappingLoop mappingSize.toNat s1 [] 4 with
    | none => none
    | some (raw, b1, s2) =>
      match readInt s2 with
      | none => none
      | some (nbConstraints, s3) =>
        match readConstraintsLoop nbConstraints.toNat 0 s3 [] minIn maxIn (b1 + 4) with
        | none => none
        | some (cs, mn, mx, b2, s4) => some ⟨raw, cs, mn, mx, nbConstraints, b2, s4⟩

/-- Modelled from the spec: the comparator `cmp` used by `ReadPersistenceIndex`
(TopologicalCompression.cpp:370) is declared in the class header, which is not
part of the sources; per the spec it orders mapping tuples by vertexId
ascending. -/
def cmp (a b : Int × Int) : Bool := decide (a.2 < b.2)

/-- Modelled from the spec: the comparator `cmp2` used by
`ReadPersistenceIndex` (TopologicalCompression.cpp:371), declared in the class
header; per the spec it orders mapping tuples by value ascending. -/
def cmp2 (a b : Int × Int) : Bool := decide (a.1 < b.1)

/-- `l` is sorted with respect to the strict comparator `lt` in the sense
guaranteed by `std::sort`: no earlier element compares greater than a later
one. -/
def IsSortedBy (lt : α → α → Bool) (l : List α) : Prop :=
  List.Pairwise (fun a b => lt b a = false) l

/-- The full contract of `std::sort output = sort(input, lt)`: the output is
a permutation of the input, sorted for `lt`.  `std::sort` promises nothing
else — in particular no stability. -/
def StdSortSpec (lt : α → α → Bool) (input output : List α) : Prop :=
  output.Perm input ∧ IsSortedBy lt output

/-- The observable outcome of `ReadPersistenceIndex`: the two sorted mapping
views, the constraints, the min / max out-parameters, the `nbConstraints`
out-parameter, the returned byte count and the unread remainder. -/
structure ReadIndexResult where
  mappings : List (Int × Int)
  mappingsSortedPerValue : List (Int × Int)
  constraints : List (Int × Int × Int)
  min : Int
  max : Int
  nbConstraints : Int
  ret : Int
  rest : List StreamItem
deriving DecidableEq

/-- `ttk::TopologicalCompression::ReadPersistenceIndex`
(TopologicalCompression.cpp:341-405) as a relation between the input stream
(and incoming values of the by-reference `min` / `max`) and the possible
outcomes: the deterministic read (`ReadPersistenceIndexRaw`) followed by the
two `std::sort` calls, each constrained only by the `std::sort` contract. -/
def ReadPersistenceIndex (stream : List StreamItem) (minIn maxIn : Int)
    (out : ReadIndexResult) : Prop :=
  ∃ raw : ReadIndexRaw, ReadPersistenceIndexRaw stream minIn maxIn = some raw ∧
    StdSortSpec cmp raw.mappingsRaw out.mappings ∧
    StdSortSpec cmp2 raw.mappingsRaw out.mappingsSortedPerValue ∧
    out.constraints = raw.constraints ∧ out.min = raw.min ∧ out.max = raw.max ∧
    out.nbConstraints = raw.nbConstraints ∧ out.ret = raw.ret ∧ out.rest = raw.rest

/-- Arguments handed to the zfp library by `CompressWithZFP` once the
dimension guard has passed: direction, the derived 2D flag, the array, the
dimensions given to `zfp_field_2d` (`n1`, `n2`, unused 0) or `zfp_field_3d`
(`nx`, `ny`, `nz`), and the tolerance. -/
structure ZfpArgs where
  decompress : Bool
  is2D : Bool
  array : List Int
  d1 : Int
  d2 : Int
  d3 : Int
  tolerance : Int

/-- `ttk::TopologicalCompression::CompressWithZFP`
(TopologicalCompression.cpp:14-111).  Only the dimension handling of lines
22-32 is the repository's own logic; everything after it (zfp field setup,
header, compress / decompress, stream transfer) is a call into the external
zfp library, abstracted by the `zfp` argument.  The result is the returned
byte count, the items written to / read from the stream, and the error
messages printed. -/
def CompressWithZFP (zfp : ZfpArgs → Int × List StreamItem × List String)
    (decompress : Bool) (array : List Int) (nx ny nz : Int)
    (zfpTolerance : Int) : Int × List StreamItem × List String :=
  if nx == 1 || ny == 1 || nz == 1 then
    if nx + ny == 2 || ny + nz == 2 || nx + nz == 2 then
      (0, [], ["One-dimensional arrays not supported."])
    else
      -- the 2D branch: n1 = nx != 1 ? nx : ny, n2 = nx != 1 && ny != 1 ? ny : nz
      zfp ⟨decompress, true, array, if nx ≠ 1 then nx else ny,
        if nx ≠ 1 ∧ ny ≠ 1 then ny else nz, 0, zfpTolerance⟩
  else
    zfp ⟨decompress, false, array, nx, ny, nz, zfpTolerance⟩

end ttk

open ttk

/-! ## The bit width -/

lemma log2Loop_eq (fuel v r : Nat) (h : v ≤ fuel) : log2Loop fuel v r = Nat.log2 v + r := by
  induction fuel generalizing v r with
  | zero =>
    have hv : v = 0 := Nat.le_zero.mp h
    subst hv
    simp [log2Loop, Nat.log2]
  | succ fuel ih =>
    by_cases hv : 1 < v
    · have hrec : v / 2 ≤ fuel := by omega
      have hlog : Nat.log2 v = Nat.log2 (v / 2) + 1 := by
        rw [Nat.log2, if_pos (by omega)]
      rw [log2Loop, if_pos hv, ih (v / 2) (r + 1) hrec, hlog]
      omega
    · rw [log2Loop, if_neg hv, Nat.log2, if_neg (by omega)]
      omega

lemma log2_eq_natLog2 (val : Int) (h1 : 1 ≤ val) : ttk.log2 val = Nat.log2 val.toNat := by
  unfold ttk.log2
  rcases lt_or_eq_of_le h1 with hgt | heq
  · rw [if_neg (by omega), if_neg (by omega), if_pos hgt,
      log2Loop_eq val.toNat val.toNat 0 le_rfl]
    omega
  · rw [← heq]
    simp [Nat.log2]

/-- Claim C6: for every `numberOfSegments` in `[1, 2^31)` (the positive
int32 range), the bit width — the single pure function `bitsPerSegment`,
evaluated both by `WriteCompactSegmentation` (TopologicalCompression.cpp:268)
and by `ReadCompactSegmentation` (TopologicalCompression.cpp:168) — equals
`floor(log2(numberOfSegments)) + 1`; in particular it is 1 for
`numberOfSegments = 1`. -/
theorem bitsPerSegment_eq_log2 (S : Int) (h1 : 1 ≤ S) (h2 : S < 2147483648) :
    bitsPerSegment S = Nat.log2 S.toNat + 1 := by
  have hne : S.toNat ≠ 0 := by omega
  have hlt : Nat.log2 S.toNat < 31 := by
    rw [Nat.log2_lt hne]
    omega
  rw [bitsPerSegment, log2_eq_natLog2 S h1, Nat.mod_eq_of_lt (by omega)]

theorem bitsPerSegment_eq_log2_witness :
    bitsPerSegment 1 = Nat.log2 (Int.toNat 1) + 1 ∧ bitsPerSegment 1 = 1 :=
  ⟨bitsPerSegment_eq_log2 1 (by decide) (by decide), by
    rw [bitsPerSegment_eq_log2 1 (by decide) (by decide)]
    rw [Nat.log2, if_neg (by decide)]⟩

/-! ## Early-exit paths of the segmentation codec -/

/-- Claim C9: for a stream whose stored `numberOfSegments` is 0 (so
`log2` returns `UINT_MAX` and the unsigned width wraps to 0),
`ReadCompactSegmentation` returns -2 right after reading the two leading
int32 fields: no packed word is read, no value is decoded, the rest of the
stream is untouched. -/
theorem ReadCompactSegmentation_zero_segments (N : Int) (rest : List StreamItem) :
    ReadCompactSegmentation (StreamItem.int32 N :: StreamItem.int32 0 :: rest) =
      some ⟨-2, [], N, 0, rest⟩ := rfl

/-- Claim C3 (amended): when the derived bit width exceeds 32 — which
requires a `numberOfSegments` beyond the int32 range, here modelled with
unbounded integers as the source's "support long int" TODO anticipates —
`WriteCompactSegmentation` returns -3 having written nothing, and
`ReadCompactSegmentation` returns -3 after consuming exactly the two leading
int32 header fields (it must read `numberOfSegments` from the stream before
it can check the width), decoding nothing further. -/
theorem segWidthOverflow_reject (S : Int) (h : 32 < bitsPerSegment S) :
    (∀ (seg : List Int) (pad : Nat → Int) (N : Int),
        WriteCompactSegmentation seg pad N S = some (-3, [])) ∧
    (∀ (a : Int) (rest : List StreamItem),
        ReadCompactSegmentation (StreamItem.int32 a :: StreamItem.int32 S :: rest) =
          some ⟨-3, [], a, S, rest⟩) := by
  refine ⟨fun seg pad N => ?_, fun a rest => ?_⟩
  · rw [WriteCompactSegmentation]
    simp [h]
  · have h0 : ¬(bitsPerSegment S = 0) := by omega
    rw [ReadCompactSegmentation]
    simp only [readInt]
    rw [if_neg h0, if_pos h]

/-- Counterexample to claim C3 as stated: with `numberOfSegments = 2^32`
(width 33), `ReadCompactSegmentation` does not leave the stream untouched —
it consumes the two leading int32 fields before failing, so the remaining
stream differs from the input stream. -/
theorem segWidthOverflow_read_consumes :
    ReadCompactSegmentation
        [StreamItem.int32 7, StreamItem.int32 4294967296, StreamItem.int32 99] =
      some ⟨-3, [], 7, 4294967296, [StreamItem.int32 99]⟩ ∧
    [StreamItem.int32 99] ≠
      [StreamItem.int32 7, StreamItem.int32 4294967296, StreamItem.int32 99] :=
  ⟨by decide, by decide⟩

theorem segWidthOverflow_reject_witness :
    32 < bitsPerSegment 4294967296 ∧
    WriteCompactSegmentation [0] (fun _ => 0) 1 4294967296 = some (-3, []) ∧
    ReadCompactSegmentation [StreamItem.int32 1, StreamItem.int32 4294967296] =
      some ⟨-3, [], 1, 4294967296, []⟩ :=
  ⟨by decide, (segWidthOverflow_reject 4294967296 (by decide)).1 [0] (fun _ => 0) 1,
    (segWidthOverflow_reject 4294967296 (by decide)).2 1 []⟩

/-! ## The ZFP dimension guard -/

/-- Claim C8: for every grid shape with all dimensions ≥ 1 in which two of
the three dimensions equal 1 (a true 1-D grid), `CompressWithZFP` prints the
error and returns 0 without invoking the zfp backend at all — no bytes are
compressed or transferred — in both the compress and the decompress
direction (the guard of TopologicalCompression.cpp:22-28 runs before the
`decompress` flag is consulted). -/
theorem CompressWithZFP_rejects_1d (zfp : ZfpArgs → Int × List StreamItem × List String)
    (decompress : Bool) (array : List Int) (nx ny nz tol : Int)
    (hx : 1 ≤ nx) (hy : 1 ≤ ny) (hz : 1 ≤ nz)
    (h : (nx = 1 ∧ ny = 1) ∨ (ny = 1 ∧ nz = 1) ∨ (nx = 1 ∧ nz = 1)) :
    CompressWithZFP zfp decompress array nx ny nz tol =
      (0, [], ["One-dimensional arrays not supported."]) := by
  rcases h with ⟨h1, h2⟩ | ⟨h1, h2⟩ | ⟨h1, h2⟩ <;> subst h1 <;> subst h2 <;>
    simp [CompressWithZFP]

theorem CompressWithZFP_rejects_1d_witness :
    CompressWithZFP (fun _ => (77, [], [])) true [3] 1 1 4 0 =
      (0, [], ["One-dimensional arrays not supported."]) ∧
    CompressWithZFP (fun _ => (77, [], [])) false [3] 1 1 4 0 =
      (0, [], ["One-dimensional arrays not supported."]) :=
  ⟨CompressWithZFP_rejects_1d _ true [3] 1 1 4 0 (by decide) (by decide) (by decide)
      (Or.inl ⟨rfl, rfl⟩),
    CompressWithZFP_rejects_1d _ false [3] 1 1 4 0 (by decide) (by decide) (by decide)
      (Or.inl ⟨rfl, rfl⟩)⟩

/-! ## The persistence index codec -/

/-- The items `writeMappingLoop` appends for a mapping table. -/
def mappingItems (m : List (Int × Int)) : List StreamItem :=
  m.flatMap (fun t => [StreamItem.int32 t.2, StreamItem.float64 t.1])

/-- The items `writeConstraintsLoop` appends for a constraint list. -/
def constraintItems (c : List (Int × Int × Int)) : List StreamItem :=
  c.flatMap (fun t => [StreamItem.int32 t.1, StreamItem.float64 t.2.1, StreamItem.int32 t.2.2])

lemma writeMappingLoop_spec (m : List (Int × Int)) (bytes : Int) (out : List StreamItem) :
    writeMappingLoop m bytes out = (bytes + 12 * m.length, out ++ mappingItems m) := by
  induction m generalizing bytes out with
  | nil => simp [writeMappingLoop, mappingItems]
  | cons t rest ih =>
    rw [writeMappingLoop, ih]
    simp only [mappingItems, List.flatMap_cons, List.length_cons, List.append_assoc,
      Prod.mk.injEq]
    exact ⟨by push_cast; ring, trivial⟩

lemma writeConstraintsLoop_spec (c : List (Int × Int × Int)) (bytes : Int)
    (out : List StreamItem) :
    writeConstraintsLoop c bytes out = (bytes + 16 * c.length, out ++ constraintItems c) := by
  induction c generalizing bytes out with
  | nil => simp [writeConstraintsLoop, constraintItems]
  | cons t rest ih =>
    rw [writeConstraintsLoop, ih]
    simp only [constraintItems, List.flatMap_cons, List.length_cons, List.append_assoc,
      Prod.mk.injEq]
    exact ⟨by push_cast; ring, trivial⟩

lemma WritePersistenceIndex_spec (m : List (Int × Int)) (c : List (Int × Int × Int)) :
    WritePersistenceIndex m c =
      (8 + 12 * (m.length : Int) + 16 * (c.length : Int),
        StreamItem.int32 (m.length : Int) :: (mappingItems m ++
          StreamItem.int32 (c.length : Int) :: constraintItems c)) := by
  unfold WritePersistenceIndex
  rw [writeMappingLoop_spec, writeConstraintsLoop_spec]
  simp only [Prod.mk.injEq]
  refine ⟨by ring, by simp⟩

lemma readMappingLoop_items (m : List (Int × Int)) (tail : List StreamItem)
    (acc : List (Int × Int)) (bytes : Int) :
    readMappingLoop m.length (mappingItems m ++ tail) acc bytes =
      some (acc ++ m, bytes + 12 * m.length, tail) := by
  induction m generalizing acc bytes with
  | nil => simp [readMappingLoop, mappingItems]
  | cons t rest ih =>
    have hstep : mappingItems (t :: rest) ++ tail =
        StreamItem.int32 t.2 :: StreamItem.float64 t.1 :: (mappingItems rest ++ tail) := by
      simp [mappingItems]
    rw [List.length_cons, hstep, readMappingLoop]
    simp only [readInt, readDouble]
    rw [ih]
    simp only [Option.some.injEq, Prod.mk.injEq]
    exact ⟨by simp, by push_cast; ring, trivial⟩

/-- The constraints loop from a counter value `i ≥ 1` (no re-initialization of
`min` / `max`): a pure fold of `min` / `max` over the constraint values. -/
lemma readConstraintsLoop_items_pos (c : List (Int × Int × Int)) (tail : List StreamItem)
    (i : Nat) (hi : i ≠ 0) (acc : List (Int × Int × Int)) (mn mx : Int) (bytes : Int) :
    readConstraintsLoop c.length i (constraintItems c ++ tail) acc mn mx bytes =
      some (acc ++ c, c.foldl (fun a u => min a u.2.1) mn,
        c.foldl (fun a u => max a u.2.1) mx, bytes + 16 * c.length, tail) := by
  induction c generalizing i acc mn mx bytes with
  | nil => simp [readConstraintsLoop, constraintItems]
  | cons t rest ih =>
    have hstep : constraintItems (t :: rest) ++ tail =
        StreamItem.int32 t.1 :: StreamItem.float64 t.2.1 :: StreamItem.int32 t.2.2 ::
          (constraintItems rest ++ tail) := by
      simp [constraintItems]
    rw [List.length_cons, hstep, readConstraintsLoop]
    simp only [readInt, readDouble]
    rw [if_neg hi, if_neg hi, ih (i + 1) (by omega)]
    simp only [Option.some.injEq, Prod.mk.injEq, List.foldl_cons]
    refine ⟨by simp, ?_, ?_, by push_cast; ring, trivial⟩
    · have hmin : (if t.2.1 < mn then t.2.1 else mn) = min mn t.2.1 := by
        rw [min_def]
        split_ifs <;> omega
      rw [hmin]
    · have hmax : (if mx < t.2.1 then t.2.1 else mx) = max mx t.2.1 := by
        rw [max_def]
        split_ifs <;> omega
      rw [hmax]

lemma ReadPersistenceIndexRaw_of_write (m : List (Int × Int)) (c : List (Int × Int × Int))
    (minIn maxIn : Int) (tail : List StreamItem) :
    ReadPersistenceIndexRaw ((WritePersistenceIndex m c).2 ++ tail) minIn maxIn =
      some ⟨m, c,
        (match c with
          | [] => minIn
          | t :: rest => rest.foldl (fun a u => min a u.2.1) t.2.1),
        (match c with
          | [] => maxIn
          | t :: rest => rest.foldl (fun a u => max a u.2.1) t.2.1),
        (c.length : Int), 8 + 12 * (m.length : Int) + 16 * (c.length : Int), tail⟩ := by
  rw [WritePersistenceIndex_spec]
  unfold ReadPersistenceIndexRaw
  simp only [readInt, List.cons_append, List.append_assoc, Int.toNat_natCast]
  rw [readMappingLoop_items]
  simp only [readInt, Int.toNat_natCast, List.nil_append]
  rcases c with _ | ⟨t, rest⟩
  · simp only [readConstraintsLoop, constraintItems, List.length_nil]
    simp
    ring
  · have hstep : constraintItems (t :: rest) ++ tail =
        StreamItem.int32 t.1 :: StreamItem.float64 t.2.1 :: StreamItem.int32 t.2.2 ::
          (constraintItems rest ++ tail) := by
      simp [constraintItems]
    rw [List.length_cons, hstep, readConstraintsLoop]
    simp only [readInt, readDouble]
    norm_num
    rw [readConstraintsLoop_items_pos rest tail 1 (by omega)]
    simp only [Option.some.injEq, ReadIndexRaw.mk.injEq]
    refine ⟨by simp, by simp, trivial, trivial, trivial, by ring, trivial⟩

instance {α : Type} (lt : α → α → Bool) (l : List α) : Decidable (IsSortedBy lt l) := by
  unfold IsSortedBy
  infer_instance

lemma foldlMin_le_init (l : List Int) (a : Int) : l.foldl min a ≤ a := by
  induction l generalizing a with
  | nil => exact le_rfl
  | cons v rest ih => exact le_trans (ih (min a v)) (min_le_left a v)

lemma foldlMin_le_mem (l : List Int) (a : Int) : ∀ x ∈ l, l.foldl min a ≤ x := by
  induction l generalizing a with
  | nil => intro x hx; cases hx
  | cons v rest ih =>
    intro x hx
    rcases List.mem_cons.mp hx with rfl | hx
    · exact le_trans (foldlMin_le_init rest (min a x)) (min_le_right a x)
    · exact ih (min a v) x hx

lemma foldlMin_eq_init_or_mem (l : List Int) (a : Int) :
    l.foldl min a = a ∨ l.foldl min a ∈ l := by
  induction l generalizing a with
  | nil => exact Or.inl rfl
  | cons v rest ih =>
    rcases ih (min a v) with h | h
    · rcases min_choice a v with hc | hc
      · exact Or.inl (by rw [List.foldl_cons, h, hc])
      · exact Or.inr (by rw [List.foldl_cons, h, hc]; exact List.mem_cons_self v rest)
    · exact Or.inr (List.mem_cons_of_mem v h)

lemma foldlMax_init_le (l : List Int) (a : Int) : a ≤ l.foldl max a := by
  induction l generalizing a with
  | nil => exact le_rfl
  | cons v rest ih => exact le_trans (le_max_left a v) (ih (max a v))

lemma foldlMax_mem_le (l : List Int) (a : Int) : ∀ x ∈ l, x ≤ l.foldl max a := by
  induction l generalizing a with
  | nil => intro x hx; cases hx
  | cons v rest ih =>
    intro x hx
    rcases List.mem_cons.mp hx with rfl | hx
    · exact le_trans (le_max_right a x) (foldlMax_init_le rest (max a x))
    · exact ih (max a v) x hx

lemma foldlMax_eq_init_or_mem (l : List Int) (a : Int) :
    l.foldl max a = a ∨ l.foldl max a ∈ l := by
  induction l generalizing a with
  | nil => exact Or.inl rfl
  | cons v rest ih =>
    rcases ih (max a v) with h | h
    · rcases max_choice a v with hc | hc
      · exact Or.inl (by rw [List.foldl_cons, h, hc])
      · exact Or.inr (by rw [List.foldl_cons, h, hc]; exact List.mem_cons_self v rest)
    · exact Or.inr (List.mem_cons_of_mem v h)

/-- Claim C7: reading back any written index whose constraint list is
nonempty yields `min` equal to the minimum and `max` equal to the maximum of
the `value` fields over all constraints read (the loop initializes both from
the first constraint's value and then widens them). -/
theorem ReadPersistenceIndex_min_max (m : List (Int × Int)) (c : List (Int × Int × Int))
    (minIn maxIn : Int) (tail : List StreamItem) (hc : c ≠ []) :
    ∃ raw : ReadIndexRaw,
      ReadPersistenceIndexRaw ((WritePersistenceIndex m c).2 ++ tail) minIn maxIn =
        some raw ∧
      raw.min ∈ c.map (fun u => u.2.1) ∧ (∀ v ∈ c.map (fun u => u.2.1), raw.min ≤ v) ∧
      raw.max ∈ c.map (fun u => u.2.1) ∧ (∀ v ∈ c.map (fun u => u.2.1), v ≤ raw.max) := by
  rcases c with _ | ⟨t, rest⟩
  · exact absurd rfl hc
  refine ⟨_, ReadPersistenceIndexRaw_of_write m (t :: rest) minIn maxIn tail, ?_, ?_, ?_, ?_⟩
  · show rest.foldl (fun a u => min a u.2.1) t.2.1 ∈ (t :: rest).map (fun u => u.2.1)
    rw [← List.foldl_map (fun u => u.2.1) min rest t.2.1, List.map_cons]
    rcases foldlMin_eq_init_or_mem (rest.map (fun u => u.2.1)) t.2.1 with h | h
    · rw [h]; exact List.mem_cons_self _ _
    · exact List.mem_cons_of_mem _ h
  · show ∀ v ∈ (t :: rest).map (fun u => u.2.1),
      rest.foldl (fun a u => min a u.2.1) t.2.1 ≤ v
    rw [← List.foldl_map (fun u => u.2.1) min rest t.2.1, List.map_cons]
    intro v hv
    rcases List.mem_cons.mp hv with rfl | hv
    · exact foldlMin_le_init _ _
    · exact foldlMin_le_mem _ _ v hv
  · show rest.foldl (fun a u => max a u.2.1) t.2.1 ∈ (t :: rest).map (fun u => u.2.1)
    rw [← List.foldl_map (fun u => u.2.1) max rest t.2.1, List.map_cons]
    rcases foldlMax_eq_init_or_mem (rest.map (fun u => u.2.1)) t.2.1 with h | h
    · rw [h]; exact List.mem_cons_self _ _
    · exact List.mem_cons_of_mem _ h
  · show ∀ v ∈ (t :: rest).map (fun u => u.2.1),
      v ≤ rest.foldl (fun a u => max a u.2.1) t.2.1
    rw [← List.foldl_map (fun u => u.2.1) max rest t.2.1, List.map_cons]
    intro v hv
    rcases List.mem_cons.mp hv with rfl | hv
    · exact foldlMax_init_le _ _
    · exact foldlMax_mem_le _ _ v hv

theorem ReadPersistenceIndex_min_max_witness :
    ∃ raw : ReadIndexRaw,
      ReadPersistenceIndexRaw
          ((WritePersistenceIndex [(7, 4)] [(1, 5, 0), (2, 3, 0)]).2 ++ []) 0 0 =
        some raw ∧
      raw.min ∈ ([(1, 5, 0), (2, 3, 0)] : List (Int × Int × Int)).map (fun u => u.2.1) ∧
      (∀ v ∈ ([(1, 5, 0), (2, 3, 0)] : List (Int × Int × Int)).map (fun u => u.2.1),
        raw.min ≤ v) ∧
      raw.max ∈ ([(1, 5, 0), (2, 3, 0)] : List (Int × Int × Int)).map (fun u => u.2.1) ∧
      (∀ v ∈ ([(1, 5, 0), (2, 3, 0)] : List (Int × Int × Int)).map (fun u => u.2.1),
        v ≤ raw.max) :=
  ReadPersistenceIndex_min_max [(7, 4)] [(1, 5, 0), (2, 3, 0)] 0 0 [] (by decide)

/-- Claim C10: when the stored constraints count is 0, the constraint loop of
`ReadPersistenceIndex` never executes, so the by-reference `min` / `max`
out-parameters keep whatever values the caller passed in, while the mapping
views, the (empty) constraints list, the `nbConstraints` out-parameter and
the returned byte count are produced normally. -/
theorem ReadPersistenceIndex_zero_constraints (m : List (Int × Int)) (minIn maxIn : Int)
    (tail : List StreamItem) (out : ReadIndexResult)
    (h : ReadPersistenceIndex ((WritePersistenceIndex m []).2 ++ tail) minIn maxIn out) :
    out.min = minIn ∧ out.max = maxIn ∧ out.constraints = [] ∧ out.nbConstraints = 0 ∧
      out.ret = 8 + 12 * (m.length : Int) ∧ out.rest = tail ∧
      StdSortSpec cmp m out.mappings ∧ StdSortSpec cmp2 m out.mappingsSortedPerValue := by
  obtain ⟨raw, hraw, hs1, hs2, hc, hmn, hmx, hnb, hret, hrest⟩ := h
  have hw : ReadPersistenceIndexRaw ((WritePersistenceIndex m []).2 ++ tail) minIn maxIn =
      some (⟨m, [], minIn, maxIn, 0, 8 + 12 * (m.length : Int), tail⟩ : ReadIndexRaw) := by
    rw [ReadPersistenceIndexRaw_of_write m [] minIn maxIn tail]
    simp
  rw [hw] at hraw
  cases Option.some.inj hraw
  exact ⟨hmn, hmx, hc, hnb, hret, hrest, hs1, hs2⟩

theorem ReadPersistenceIndex_zero_constraints_witness :
    (⟨[(3, 1), (4, 2)], [(3, 1), (4, 2)], [], 5, 6, 0, 32, []⟩ : ReadIndexResult).min = 5 ∧
    (⟨[(3, 1), (4, 2)], [(3, 1), (4, 2)], [], 5, 6, 0, 32, []⟩ : ReadIndexResult).max = 6 ∧
    (⟨[(3, 1), (4, 2)], [(3, 1), (4, 2)], [], 5, 6, 0, 32, []⟩ : ReadIndexResult).constraints = [] ∧
    (⟨[(3, 1), (4, 2)], [(3, 1), (4, 2)], [], 5, 6, 0, 32, []⟩ : ReadIndexResult).nbConstraints = 0 ∧
    (⟨[(3, 1), (4, 2)], [(3, 1), (4, 2)], [], 5, 6, 0, 32, []⟩ : ReadIndexResult).ret =
      8 + 12 * (([(3, 1), (4, 2)] : List (Int × Int)).length : Int) ∧
    (⟨[(3, 1), (4, 2)], [(3, 1), (4, 2)], [], 5, 6, 0, 32, []⟩ : ReadIndexResult).rest = [] ∧
    StdSortSpec cmp [(3, 1), (4, 2)]
      (⟨[(3, 1), (4, 2)], [(3, 1), (4, 2)], [], 5, 6, 0, 32, []⟩ : ReadIndexResult).mappings ∧
    StdSortSpec cmp2 [(3, 1), (4, 2)]
      (⟨[(3, 1), (4, 2)], [(3, 1), (4, 2)], [], 5, 6, 0, 32, []⟩ : ReadIndexResult).mappingsSortedPerValue :=
  ReadPersistenceIndex_zero_constraints [(3, 1), (4, 2)] 5 6 []
    ⟨[(3, 1), (4, 2)], [(3, 1), (4, 2)], [], 5, 6, 0, 32, []⟩
    ⟨⟨[(3, 1), (4, 2)], [], 5, 6, 0, 32, []⟩, by decide,
      ⟨List.Perm.refl _, by decide⟩, ⟨List.Perm.refl _, by decide⟩,
      rfl, rfl, rfl, rfl, rfl, rfl⟩

/-- Claim C4 (amended): reading back any written index yields a permutation
of the mapping table sorted by vertexId ascending (ties, if any, in
unspecified order), a permutation of the mapping table sorted by value
ascending (tie order unspecified — `std::sort` gives no stability), and the
constraints list verbatim in written order. -/
theorem ReadPersistenceIndex_roundtrip (m : List (Int × Int))
    (c : List (Int × Int × Int)) (minIn maxIn : Int) (out : ReadIndexResult)
    (h : ReadPersistenceIndex ((WritePersistenceIndex m c).2) minIn maxIn out) :
    out.mappings.Perm m ∧ IsSortedBy cmp out.mappings ∧
      out.mappingsSortedPerValue.Perm m ∧ IsSortedBy cmp2 out.mappingsSortedPerValue ∧
      out.constraints = c := by
  obtain ⟨raw, hraw, ⟨hp1, hs1⟩, ⟨hp2, hs2⟩, hc, _, _, _, _, _⟩ := h
  have hw := ReadPersistenceIndexRaw_of_write m c minIn maxIn []
  rw [List.append_nil] at hw
  rw [hw] at hraw
  cases Option.some.inj hraw
  exact ⟨hp1, hs1, hp2, hs2, hc⟩

/-- Counterexample to claim C4 as stated: for the mapping table
`[(5, 2), (5, 1)]` (two entries with equal value 5, vertexIds 2 then 1),
the outcome whose by-value view is `[(5, 1), (5, 2)]` satisfies everything
the code guarantees (a `std::sort` outcome), yet its entries of equal value
do not keep their relative read order — the claimed stable tie-break
`[(5, 2), (5, 1)]` is not what it returns. -/
theorem ReadPersistenceIndex_sort_unstable :
    ReadPersistenceIndex (WritePersistenceIndex [(5, 2), (5, 1)] []).2 0 0
      ⟨[(5, 1), (5, 2)], [(5, 1), (5, 2)], [], 0, 0, 0, 32, []⟩ ∧
    ([(5, 1), (5, 2)] : List (Int × Int)) ≠ [(5, 2), (5, 1)] :=
  ⟨⟨⟨[(5, 2), (5, 1)], [], 0, 0, 0, 32, []⟩, by decide,
      ⟨List.Perm.swap _ _ _, by decide⟩, ⟨List.Perm.swap _ _ _, by decide⟩,
      rfl, rfl, rfl, rfl, rfl, rfl⟩,
    by decide⟩

theorem ReadPersistenceIndex_roundtrip_witness :
    ([(7, 4), (3, 9)] : List (Int × Int)).Perm [(7, 4), (3, 9)] ∧
    IsSortedBy cmp [(7, 4), (3, 9)] ∧
    ([(3, 9), (7, 4)] : List (Int × Int)).Perm [(7, 4), (3, 9)] ∧
    IsSortedBy cmp2 [(3, 9), (7, 4)] ∧
    ([(2, 5, 1)] : List (Int × Int × Int)) = [(2, 5, 1)] := by
  have h := ReadPersistenceIndex_roundtrip [(7, 4), (3, 9)] [(2, 5, 1)] 0 0
    ⟨[(7, 4), (3, 9)], [(3, 9), (7, 4)], [(2, 5, 1)], 5, 5, 1, 48, []⟩
    ⟨⟨[(7, 4), (3, 9)], [(2, 5, 1)], 5, 5, 1, 48, []⟩, by decide,
      ⟨List.Perm.refl _, by decide⟩, ⟨List.Perm.swap _ _ _, by decide⟩,
      rfl, rfl, rfl, rfl, rfl, rfl⟩
  exact h

/-! ## Claim C2: decoded value count -/

lemma readSegOuter_length (w : Nat) (N : Int) (fuel : Nat) :
    ∀ (cell offset masker : Nat) (old bytes : Int) (acc : List Int)
      (stream : List StreamItem) (bytesF : Int) (accF : List Int)
      (restF : List StreamItem),
      readSegOuter w N cell offset masker old bytes acc stream fuel =
        some (bytesF, accF, restF) →
      ∃ pushed : List Int, accF = acc ++ pushed ∧
        N ≤ (cell : Int) + (pushed.length : Int) := by
  induction fuel with
  | zero =>
    intro cell offset masker old bytes acc stream bytesF accF restF h
    simp [readSegOuter] at h
  | succ fuel ih =>
    intro cell offset masker old bytes acc stream bytesF accF restF h
    by_cases hcell : (cell : Int) < N
    · cases hread : ttk.readInt stream with
      | none =>
        rw [readSegOuter, if_pos hcell] at h
        simp [hread] at h
      | some pr =>
        obtain ⟨word, rest⟩ := pr
        cases hloop : ttk.readSegLoop w word old offset masker 34 with
        | none =>
          rw [readSegOuter, if_pos hcell] at h
          simp [hread, hloop] at h
        | some tr =>
          obtain ⟨pushed1, offset1, masker1⟩ := tr
          rw [readSegOuter, if_pos hcell] at h
          simp only [hread, hloop] at h
          obtain ⟨p2, hacc, hlen⟩ := ih _ _ _ _ _ _ _ _ _ _ h
          refine ⟨pushed1 ++ p2, by rw [hacc, List.append_assoc], ?_⟩
          rw [List.length_append]
          push_cast at hlen ⊢
          omega
    · rw [readSegOuter, if_neg hcell] at h
      simp only [Option.some.injEq, Prod.mk.injEq] at h
      obtain ⟨-, h2, -⟩ := h
      exact ⟨[], by rw [← h2, List.append_nil], by omega⟩

/-- Claim C2 (amended): every successful call to `ReadCompactSegmentation`
(returned value ≥ 0, i.e. not an early error) appends at least
`numberOfVertices` decoded values — never fewer, but possibly more: the inner
loop decodes every complete w-bit field of the final word read, without
checking the cell counter. -/
theorem ReadCompactSegmentation_count (stream : List StreamItem) (r : ReadSegResult)
    (h : ReadCompactSegmentation stream = some r) (hok : 0 ≤ r.ret) :
    r.numberOfVertices ≤ (r.segmentation.length : Int) := by
  unfold ReadCompactSegmentation at h
  cases hr1 : ttk.readInt stream with
  | none => simp [hr1] at h
  | some pr1 =>
    obtain ⟨N, r1⟩ := pr1
    cases hr2 : ttk.readInt r1 with
    | none => simp [hr1, hr2] at h
    | some pr2 =>
      obtain ⟨S, r2⟩ := pr2
      simp only [hr1, hr2] at h
      by_cases h0 : bitsPerSegment S = 0
      · rw [if_pos h0] at h
        cases Option.some.inj h
        simp at hok
      · rw [if_neg h0] at h
        by_cases h32 : 32 < bitsPerSegment S
        · rw [if_pos h32] at h
          cases Option.some.inj h
          simp at hok
        · rw [if_neg h32] at h
          cases houter : readSegOuter (bitsPerSegment S) N 0 0 0 0 8 [] r2
              (33 * (N.toNat + 2)) with
          | none => simp [houter] at h
          | some tr =>
            obtain ⟨bytes, seg, rest⟩ := tr
            simp only [houter] at h
            cases Option.some.inj h
            obtain ⟨pushed, hacc, hlen⟩ :=
              readSegOuter_length (bitsPerSegment S) N (33 * (N.toNat + 2))
                0 0 0 0 8 [] r2 bytes seg rest houter
            rw [List.nil_append] at hacc
            subst hacc
            simpa using hlen

/-- Counterexample to claim C2 as stated: a stream declaring 1 vertex and 1
segment (width 1) makes `ReadCompactSegmentation` decode all 32 one-bit
fields of the single packed word: 32 values are appended, not 1. -/
theorem ReadCompactSegmentation_count_exceeds :
    ReadCompactSegmentation
        [StreamItem.int32 1, StreamItem.int32 1, StreamItem.int32 0] =
      some ⟨12, List.replicate 32 0, 1, 1, []⟩ ∧
    ((List.replicate 32 (0 : Int)).length : Int) ≠ 1 :=
  ⟨by decide, by decide⟩

theorem ReadCompactSegmentation_count_witness :
    (⟨12, List.replicate 32 0, 1, 1, []⟩ : ReadSegResult).numberOfVertices ≤
      (((⟨12, List.replicate 32 0, 1, 1, []⟩ : ReadSegResult).segmentation.length : Nat) : Int) :=
  ReadCompactSegmentation_count
    [StreamItem.int32 1, StreamItem.int32 1, StreamItem.int32 0]
    ⟨12, List.replicate 32 0, 1, 1, []⟩ (by decide) (by decide)

/-! ## Bit-pattern toolkit for the segmentation codec proofs -/

lemma u32_lt (a : Int) : u32 a < 4294967296 := by
  have h := Int.emod_lt_of_pos a (show (0 : Int) < 4294967296 by decide)
  have h0 := Int.emod_nonneg a (show (4294967296 : Int) ≠ 0 by decide)
  unfold u32
  omega

lemma u32_i32 (n : Nat) : u32 (i32 n) = n % 4294967296 := by
  unfold u32 i32
  have hm : n % 4294967296 < 4294967296 := Nat.mod_lt n (by decide)
  by_cases h : n % 4294967296 < 2147483648
  · rw [if_pos h]
    omega
  · rw [if_neg h]
    omega

lemma i32_mod (n : Nat) : i32 (n % 4294967296) = i32 n := by
  unfold i32
  rw [Nat.mod_mod_of_dvd n (dvd_refl _)]

lemma i32_of_lt {n : Nat} (h : n < 2147483648) : i32 n = (n : Int) := by
  unfold i32
  rw [Nat.mod_eq_of_lt (by omega), if_pos (by omega)]

lemma i32_neg_iff {n : Nat} (h : n < 4294967296) : i32 n < 0 ↔ 2147483648 ≤ n := by
  unfold i32
  rw [Nat.mod_eq_of_lt h]
  by_cases hh : n < 2147483648
  · rw [if_pos hh]
    omega
  · rw [if_neg hh]
    omega

lemma u32_natCast (n : Nat) : u32 (n : Int) = n % 4294967296 := by
  unfold u32
  rw [show ((n : Int)) % 4294967296 = ((n % 4294967296 : Nat) : Int) by push_cast; rfl,
    Int.toNat_natCast]

lemma u32_of_bounds {a : Int} (h0 : 0 ≤ a) (h1 : a < 4294967296) : u32 a = a.toNat := by
  unfold u32
  rw [Int.emod_eq_of_lt h0 h1]

lemma u32_or (a b : Int) : u32 (orInt a b) = u32 a ||| u32 b := by
  unfold orInt
  rw [u32_i32]
  exact Nat.mod_eq_of_lt (Nat.bitwise_lt_two_pow (n := 32) (u32_lt a) (u32_lt b))

lemma u32_shl (a : Int) (k : Nat) : u32 (shlInt a k) = (u32 a <<< k) % 4294967296 := by
  unfold shlInt
  rw [u32_i32]

lemma u32_and_mask (a : Int) : u32 (andInt a 2147483647) = u32 a % 2147483648 := by
  unfold andInt
  rw [u32_i32]
  have : u32 (2147483647 : Int) = 2147483647 := by decide
  rw [this, show (2147483647 : Nat) = 2 ^ 31 - 1 by decide,
    Nat.and_pow_two_sub_one_eq_mod]
  exact Nat.mod_eq_of_lt (lt_of_lt_of_le (Nat.mod_lt _ (by decide)) (by decide))

lemma asrInt_natCast (n : Nat) (k : Nat) : asrInt (n : Int) k = ((n >>> k : Nat) : Int) := by
  unfold asrInt
  rw [Nat.shiftRight_eq_div_pow, Int.ofNat_fdiv]
  congr 1
  push_cast
  rfl

lemma shl_mod_high (x : Nat) {a m : Nat} (h : a ≤ m) :
    (x <<< a) % 2 ^ m = (x % 2 ^ (m - a)) <<< a := by
  rw [Nat.shiftLeft_eq, Nat.shiftLeft_eq,
    show (2 : Nat) ^ m = 2 ^ (m - a) * 2 ^ a by rw [← pow_add]; congr 1; omega,
    Nat.mul_mod_mul_right]

lemma shl_shr_of_le (y : Nat) {a k : Nat} (h : k ≤ a) :
    (y <<< a) >>> k = y <<< (a - k) := by
  rw [Nat.shiftLeft_eq, Nat.shiftRight_eq_div_pow, Nat.shiftLeft_eq,
    show (2 : Nat) ^ a = 2 ^ (a - k) * 2 ^ k by rw [← pow_add]; congr 1; omega,
    ← Nat.mul_assoc, Nat.mul_div_cancel _ (Nat.pos_pow_of_pos k (by omega))]

lemma shl_shr_of_ge (y : Nat) {a k : Nat} (h : a ≤ k) :
    (y <<< a) >>> k = y >>> (k - a) := by
  rw [Nat.shiftLeft_eq, Nat.shiftRight_eq_div_pow, Nat.shiftRight_eq_div_pow,
    show (2 : Nat) ^ k = 2 ^ a * 2 ^ (k - a) by rw [← pow_add]; congr 1; omega,
    ← Nat.div_div_eq_div_mul, Nat.mul_div_cancel _ (Nat.pos_pow_of_pos a (by omega))]

lemma mod_shr (x : Nat) (m o : Nat) (h : o ≤ m) :
    (x % 2 ^ m) >>> o = (x >>> o) % 2 ^ (m - o) := by
  rw [Nat.shiftRight_eq_div_pow, Nat.shiftRight_eq_div_pow,
    Nat.div_mod_eq_mod_mul_div,
    show (2 : Nat) ^ o * 2 ^ (m - o) = 2 ^ m by rw [← pow_add]; congr 1; omega]

lemma lor_shr (x y k : Nat) : (x ||| y) >>> k = (x >>> k) ||| (y >>> k) := by
  apply Nat.eq_of_testBit_eq
  intro i
  simp [Nat.testBit_shiftRight, Nat.testBit_lor]

lemma lor_mod_two_pow (x y k : Nat) : (x ||| y) % 2 ^ k = (x % 2 ^ k) ||| (y % 2 ^ k) := by
  apply Nat.eq_of_testBit_eq
  intro i
  simp only [Nat.testBit_mod_two_pow, Nat.testBit_lor]
  by_cases h : i < k <;> simp [h]

lemma lor_eq_add_of_lt {a b n : Nat} (ha : a < 2 ^ n) : (b * 2 ^ n) ||| a = b * 2 ^ n + a := by
  apply Nat.eq_of_testBit_eq
  intro i
  rw [Nat.testBit_lor, Nat.testBit_to_div_mod, Nat.testBit_to_div_mod,
    Nat.testBit_to_div_mod]
  rcases lt_or_ge i n with hi | hi
  · have h2 : (2 : Nat) ^ n = 2 ^ (n - i) * 2 ^ i := by rw [← pow_add]; congr 1; omega
    have hb : b * 2 ^ n / 2 ^ i = b * 2 ^ (n - i) := by
      rw [h2, ← Nat.mul_assoc, Nat.mul_div_cancel _ (Nat.pos_pow_of_pos i (by omega))]
    have hs : (b * 2 ^ n + a) / 2 ^ i = b * 2 ^ (n - i) + a / 2 ^ i := by
      rw [h2, ← Nat.mul_assoc, Nat.add_comm,
        Nat.add_mul_div_right _ _ (Nat.pos_pow_of_pos i (by omega))]
      omega
    have hev : b * 2 ^ (n - i) % 2 = 0 := by
      have h21 : b * 2 ^ (n - i) = b * 2 ^ (n - i - 1) * 2 := by
        rw [Nat.mul_assoc, ← pow_succ]
        congr 2
        omega
      rw [h21]
      exact Nat.mul_mod_left _ 2
    rw [hb, hs]
    have hsum : (b * 2 ^ (n - i) + a / 2 ^ i) % 2 = a / 2 ^ i % 2 := by omega
    rw [hsum]
    simp [hev]
  · have ha0 : a / 2 ^ i = 0 :=
      Nat.div_eq_of_lt (lt_of_lt_of_le ha (Nat.pow_le_pow_right (by omega) hi))
    have h2 : (2 : Nat) ^ i = 2 ^ n * 2 ^ (i - n) := by rw [← pow_add]; congr 1; omega
    have hb : b * 2 ^ n / 2 ^ i = b / 2 ^ (i - n) := by
      rw [h2, ← Nat.div_div_eq_div_mul, Nat.mul_div_cancel _ (Nat.pos_pow_of_pos n (by omega))]
    have hs : (b * 2 ^ n + a) / 2 ^ i = b / 2 ^ (i - n) := by
      rw [h2, ← Nat.div_div_eq_div_mul, Nat.add_comm,
        Nat.add_mul_div_right _ _ (Nat.pos_pow_of_pos n (by omega)),
        Nat.div_eq_of_lt ha]
      simp
    rw [hb, hs, ha0]
    simp

lemma i32_bounds (n : Nat) : -2147483648 ≤ i32 n ∧ i32 n < 2147483648 := by
  unfold i32
  have : n % 4294967296 < 4294967296 := Nat.mod_lt n (by decide)
  split <;> omega

lemma i32_u32_id {a : Int} (h1 : -2147483648 ≤ a) (h2 : a < 2147483648) :
    i32 (u32 a) = a := by
  unfold i32 u32
  split <;> omega

lemma shr_lt_self_pow {n w k : Nat} (h : n < 2 ^ w) : n >>> k < 2 ^ w :=
  lt_of_le_of_lt (by rw [Nat.shiftRight_eq_div_pow]; exact Nat.div_le_self n _) h

/-- The manual sign-fix sequence of `ReadCompactSegmentation` — mask bit 31,
arithmetic shift, re-set the top bit of the field — computes precisely the
logical (unsigned) right shift of the 32-bit pattern. -/
lemma lshr_emulation (n k : Nat) (hn : n < 4294967296) (hk : k ≤ 31) :
    (if i32 n < 0 then
        orInt (asrInt (andInt (i32 n) 2147483647) k) (shlInt 1 (31 - k))
      else asrInt (i32 n) k) = i32 (n >>> k) := by
  by_cases hneg : 2147483648 ≤ n
  · rw [if_pos ((i32_neg_iff hn).mpr hneg)]
    have hand : andInt (i32 n) 2147483647 = ((n % 2147483648 : Nat) : Int) := by
      unfold andInt
      have hu : u32 (i32 n) &&& u32 2147483647 = n % 2147483648 := by
        rw [u32_i32, Nat.mod_eq_of_lt hn, show u32 (2147483647 : Int) = 2147483647 by decide,
          show (2147483647 : Nat) = 2 ^ 31 - 1 by decide, Nat.and_pow_two_sub_one_eq_mod]
      rw [hu]
      exact i32_of_lt (lt_of_lt_of_le (Nat.mod_lt _ (by decide)) (by decide))
    rw [hand, asrInt_natCast]
    have hres : ((n % 2147483648) >>> k) ||| (1 <<< (31 - k)) = n >>> k := by
      have hp : (1 : Nat) <<< (31 - k) = 2 ^ (31 - k) := by
        rw [Nat.shiftLeft_eq, Nat.one_mul]
      have hlt : (n % 2147483648) >>> k < 2 ^ (31 - k) := by
        rw [Nat.shiftRight_eq_div_pow]
        apply Nat.div_lt_of_lt_mul
        calc n % 2147483648 < 2147483648 := Nat.mod_lt _ (by decide)
        _ = 2 ^ 31 := by decide
        _ ≤ 2 ^ k * 2 ^ (31 - k) := by
          rw [← pow_add]
          apply Nat.pow_le_pow_right (by omega)
          omega
      have hadd := lor_eq_add_of_lt (b := 1) (n := 31 - k) hlt
      rw [one_mul] at hadd
      rw [hp, Nat.lor_comm, hadd]
      rw [Nat.shiftRight_eq_div_pow, Nat.shiftRight_eq_div_pow]
      have h31 : (2 : Nat) ^ (31 - k) * 2 ^ k = 2147483648 := by
        rw [← pow_add, show 31 - k + k = 31 by omega]
        decide
      have hdecomp : n = n % 2147483648 + 2 ^ (31 - k) * 2 ^ k := by omega
      conv_rhs => rw [hdecomp]
      rw [Nat.add_mul_div_right _ _ (Nat.pos_pow_of_pos k (by omega))]
      omega
    unfold orInt
    rw [show u32 ((((n % 2147483648) >>> k : Nat) : Int)) = (n % 2147483648) >>> k by
        rw [u32_natCast]
        apply Nat.mod_eq_of_lt
        have h1 : (n % 2147483648) >>> k ≤ n % 2147483648 := by
          rw [Nat.shiftRight_eq_div_pow]
          exact Nat.div_le_self _ _
        omega,
      show u32 (shlInt 1 (31 - k)) = 1 <<< (31 - k) by
        rw [u32_shl, show u32 (1 : Int) = 1 by decide]
        exact Nat.mod_eq_of_lt (by
          rw [Nat.shiftLeft_eq, Nat.one_mul]
          calc (2 : Nat) ^ (31 - k) ≤ 2 ^ 31 := Nat.pow_le_pow_right (by omega) (by omega)
          _ < 4294967296 := by decide),
      hres]
  · rw [if_neg (by rw [i32_neg_iff hn]; omega)]
    rw [i32_of_lt (by omega), asrInt_natCast]
    rw [i32_of_lt (show n >>> k < 2147483648 from shr_lt_self_pow (show n < 2 ^ 31 by
      have : (2 : Nat) ^ 31 = 2147483648 := by decide
      omega))]

/-- The aligned branch of the decode inner loop extracts the `w`-bit field at
bit `offset` of the container word's 32-bit pattern. -/
lemma alignedVal (word : Int) (o w : Nat) (hw : 1 ≤ w) (how : o + w ≤ 32) :
    (if shlInt word (32 - o - w) < 0 then
        orInt (asrInt (andInt (shlInt word (32 - o - w)) 2147483647) (32 - w))
          (shlInt 1 (w - 1))
      else asrInt (shlInt word (32 - o - w)) (32 - w)) =
    i32 ((u32 word >>> o) % 2 ^ w) := by
  have hc1 : shlInt word (32 - o - w) = i32 ((u32 word <<< (32 - o - w)) % 4294967296) := by
    unfold shlInt
    rw [i32_mod]
  have hpos : (31 : Nat) - (32 - w) = w - 1 := by omega
  rw [hc1, ← hpos]
  rw [lshr_emulation _ (32 - w) (Nat.mod_lt _ (by decide)) (by omega)]
  congr 1
  rw [show (4294967296 : Nat) = 2 ^ 32 by decide,
    shl_mod_high (u32 word) (show 32 - o - w ≤ 32 by omega),
    show (32 : Nat) - (32 - o - w) = o + w by omega,
    shl_shr_of_ge _ (show 32 - o - w ≤ 32 - w by omega),
    show (32 : Nat) - w - (32 - o - w) = o by omega,
    mod_shr _ _ _ (show o ≤ o + w by omega),
    show o + w - o = w by omega]

/-- In the masked branch of the decode inner loop, the part taken from the
current container word is its low `offset` bits, placed at bit `w - offset`. -/
lemma maskedNextVal (word : Int) (o w : Nat) (hw : 1 ≤ w) (hw32 : w ≤ 32) (hok : o ≤ w) :
    (if shlInt word (32 - o) < 0 then
        orInt (asrInt (andInt (shlInt word (32 - o)) 2147483647) (32 - w))
          (shlInt 1 (w - 1))
      else asrInt (shlInt word (32 - o)) (32 - w)) =
    i32 ((u32 word % 2 ^ o) <<< (w - o)) := by
  have hc1 : shlInt word (32 - o) = i32 ((u32 word <<< (32 - o)) % 4294967296) := by
    unfold shlInt
    rw [i32_mod]
  have hpos : (31 : Nat) - (32 - w) = w - 1 := by omega
  rw [hc1, ← hpos]
  rw [lshr_emulation _ (32 - w) (Nat.mod_lt _ (by decide)) (by omega)]
  congr 1
  rw [show (4294967296 : Nat) = 2 ^ 32 by decide,
    shl_mod_high (u32 word) (show 32 - o ≤ 32 by omega),
    show (32 : Nat) - (32 - o) = o by omega,
    shl_shr_of_le _ (show 32 - w ≤ 32 - o by omega),
    show (32 : Nat) - o - (32 - w) = w - o by omega]

/-- In the masked branch of the decode inner loop, the part taken from the
previous container word is its bit pattern shifted right by `maskerRank`. -/
lemma oldPartVal (old : Int) (masker : Nat) (hm : masker ≤ 31)
    (h1 : -2147483648 ≤ old) (h2 : old < 2147483648) :
    (if old < 0 then
        orInt (asrInt (andInt old 2147483647) masker) (shlInt 1 (32 - masker - 1))
      else asrInt old masker) =
    i32 (u32 old >>> masker) := by
  have hrepr : old = i32 (u32 old) := (i32_u32_id h1 h2).symm
  have hpos : (31 : Nat) - masker = 32 - masker - 1 := by omega
  conv_lhs => rw [hrepr]
  rw [← hpos]
  exact lshr_emulation (u32 old) masker (u32_lt old) (by omega)

/-- The bit pattern assembled by the aligned iterations of the encode inner
loop: value `cell` at bit `offset`, value `cell+1` at `offset + w`, and so
on, `k` values in total (proof-side description, see
`writeSegLoop_aligned`). -/
def orPack (w : Nat) (segf : Nat → Int) : Nat → Nat → Nat → Nat
  | _, _, 0 => 0
  | cell, offset, k + 1 =>
    ((u32 (segf cell) <<< offset) % 4294967296) |||
      orPack w segf (cell + 1) (offset + w) k

lemma orPack_lt (w : Nat) (segf : Nat → Int) (k : Nat) :
    ∀ cell offset, orPack w segf cell offset k < 4294967296 := by
  induction k with
  | zero => intro cell offset; exact (by decide : (0 : Nat) < 4294967296)
  | succ k ih =>
    intro cell offset
    rw [orPack, show (4294967296 : Nat) = 2 ^ 32 by decide]
    exact Nat.bitwise_lt_two_pow (Nat.mod_lt _ (by decide))
      (by rw [show (2 : Nat) ^ 32 = 4294967296 by decide]; exact ih _ _)

lemma orPack_mod_low (w : Nat) (segf : Nat → Int) (k : Nat) :
    ∀ cell offset, offset + k * w ≤ 32 →
      orPack w segf cell offset k % 2 ^ offset = 0 := by
  induction k with
  | zero => intro cell offset _; rw [orPack]; exact Nat.zero_mod _
  | succ k ih =>
    intro cell offset h
    rw [orPack, lor_mod_two_pow]
    have h1 : ((u32 (segf cell) <<< offset) % 4294967296) % 2 ^ offset = 0 := by
      rw [Nat.mod_mod_of_dvd _ (by
          rw [show (4294967296 : Nat) = 2 ^ 32 by decide]
          exact pow_dvd_pow 2 (by omega)),
        Nat.shiftLeft_eq, Nat.mul_mod_left]
    have hih := ih (cell + 1) (offset + w) (by
      have hw1 : 1 * w ≤ (k + 1) * w := Nat.mul_le_mul_right w (by omega)
      have : k * w + w = (k + 1) * w := by ring
      omega)
    have h2 : orPack w segf (cell + 1) (offset + w) k % 2 ^ offset = 0 :=
      Nat.mod_eq_zero_of_dvd
        (dvd_trans (pow_dvd_pow 2 (by omega)) (Nat.dvd_of_mod_eq_zero hih))
    rw [h1, h2]
    rfl

lemma shr_mod_of_dvd {R o w : Nat} (h : (2 : Nat) ^ (o + w) ∣ R) :
    (R >>> o) % 2 ^ w = 0 := by
  obtain ⟨q, hq⟩ := h
  rw [hq, Nat.shiftRight_eq_div_pow,
    show (2 : Nat) ^ (o + w) * q = 2 ^ o * (2 ^ w * q) by rw [pow_add]; ring,
    Nat.mul_div_cancel_left _ (Nat.pos_pow_of_pos o (by omega))]
  exact Nat.mul_mod_right _ _

lemma orPack_extract (w : Nat) (hw : 1 ≤ w) (segf : Nat → Int) (k : Nat) :
    ∀ cell offset i, i < k → offset + k * w ≤ 32 →
      (∀ j, j < i → u32 (segf (cell + j)) < 2 ^ w) →
      (orPack w segf cell offset k >>> (offset + i * w)) % 2 ^ w =
        u32 (segf (cell + i)) % 2 ^ w := by
  induction k with
  | zero => intro cell offset i hik; omega
  | succ k ih =>
    intro cell offset i hik hbound hprev
    have hkw : k * w + w = (k + 1) * w := by ring
    have how : offset + w ≤ 32 := by
      have h1 : 1 * w ≤ (k + 1) * w := Nat.mul_le_mul_right w (by omega)
      omega
    rw [orPack, lor_shr, lor_mod_two_pow]
    rcases Nat.eq_zero_or_pos i with rfl | hipos
    · have hT : (((u32 (segf cell) <<< offset) % 4294967296) >>> (offset + 0 * w)) % 2 ^ w =
          u32 (segf cell) % 2 ^ w := by
        rw [Nat.zero_mul, Nat.add_zero,
          show (4294967296 : Nat) = 2 ^ 32 by decide,
          shl_mod_high _ (show offset ≤ 32 by omega),
          shl_shr_of_le _ (le_refl offset), Nat.sub_self, Nat.shiftLeft_zero,
          Nat.mod_mod_of_dvd _ (pow_dvd_pow 2 (show w ≤ 32 - offset by omega))]
      have hR : ((orPack w segf (cell + 1) (offset + w) k >>> (offset + 0 * w)) % 2 ^ w) = 0 := by
        rw [Nat.zero_mul, Nat.add_zero]
        apply shr_mod_of_dvd
        exact dvd_trans (pow_dvd_pow 2 (le_refl (offset + w)))
          (Nat.dvd_of_mod_eq_zero (orPack_mod_low w segf k (cell + 1) (offset + w) (by omega)))
      rw [hT, hR, Nat.or_zero, Nat.add_zero]
    · obtain ⟨i', rfl⟩ : ∃ i', i = i' + 1 := ⟨i - 1, by omega⟩
      have hT : (((u32 (segf cell) <<< offset) % 4294967296) >>> (offset + (i' + 1) * w)) %
          2 ^ w = 0 := by
        rw [show (4294967296 : Nat) = 2 ^ 32 by decide,
          shl_mod_high _ (show offset ≤ 32 by omega),
          shl_shr_of_ge _ (show offset ≤ offset + (i' + 1) * w by omega),
          Nat.add_sub_cancel_left]
        have hv : u32 (segf cell) % 2 ^ (32 - offset) < 2 ^ ((i' + 1) * w) := by
          have h0 := hprev 0 (by omega)
          rw [Nat.add_zero] at h0
          calc u32 (segf cell) % 2 ^ (32 - offset) ≤ u32 (segf cell) := Nat.mod_le _ _
          _ < 2 ^ w := h0
          _ ≤ 2 ^ ((i' + 1) * w) := Nat.pow_le_pow_right (by omega)
            (by calc w = 1 * w := (Nat.one_mul w).symm
                _ ≤ (i' + 1) * w := Nat.mul_le_mul_right w (by omega))
        rw [Nat.shiftRight_eq_div_pow, Nat.div_eq_of_lt hv, Nat.zero_mod]
      have hR : (orPack w segf (cell + 1) (offset + w) k >>> (offset + (i' + 1) * w)) %
          2 ^ w = u32 (segf (cell + 1 + i')) % 2 ^ w := by
        rw [show offset + (i' + 1) * w = (offset + w) + i' * w by ring]
        exact ih (cell + 1) (offset + w) i' (by omega) (by omega)
          (fun j hj => by
            have := hprev (j + 1) (by omega)
            rwa [show cell + (j + 1) = cell + 1 + j by ring] at this)
      rw [hT, hR, Nat.zero_or, show cell + (i' + 1) = cell + 1 + i' by ring]

lemma orPack_lt_strict (w : Nat) (segf : Nat → Int) (k : Nat) :
    ∀ cell offset, offset + k * w ≤ 32 →
      (∀ j, j < k → u32 (segf (cell + j)) < 2 ^ w) →
      orPack w segf cell offset k < 2 ^ (offset + k * w) := by
  induction k with
  | zero =>
    intro cell offset _ _
    rw [orPack]
    exact Nat.pos_pow_of_pos _ (by omega)
  | succ k ih =>
    intro cell offset hbound hvals
    rw [orPack]
    have hT : (u32 (segf cell) <<< offset) % 4294967296 < 2 ^ (offset + w) := by
      have h0 := hvals 0 (by omega)
      rw [Nat.add_zero] at h0
      calc (u32 (segf cell) <<< offset) % 4294967296 ≤ u32 (segf cell) <<< offset :=
        Nat.mod_le _ _
      _ < 2 ^ (w + offset) := Nat.shiftLeft_lt h0
      _ = 2 ^ (offset + w) := by rw [Nat.add_comm]
    have hkw : k * w + w = (k + 1) * w := by ring
    have hR : orPack w segf (cell + 1) (offset + w) k < 2 ^ (offset + w + k * w) :=
      ih (cell + 1) (offset + w) (by omega)
        (fun j hj => by
          have := hvals (j + 1) (by omega)
          rwa [show cell + (j + 1) = cell + 1 + j by ring] at this)
    have hfin : offset + (k + 1) * w = offset + w + k * w := by ring
    rw [hfin]
    exact Nat.bitwise_lt_two_pow
      (lt_of_lt_of_le hT (Nat.pow_le_pow_right (by omega) (by omega))) hR

/-- The encode inner loop, entered with `maskerRank = 0`: it performs `k`
aligned steps (where `k` is maximal with `offset + k·w + w` staying within
the word), ORing each value's shifted pattern into the container. -/
lemma writeSegLoop_aligned (w : Nat) (hw : 1 ≤ w) (segf : Nat → Int) :
    ∀ (fuel offset cell : Nat) (word : Int),
      offset ≤ 32 → 33 ≤ fuel + offset →
      -2147483648 ≤ word → word < 2147483648 →
      ∃ k : Nat,
        writeSegLoop w segf cell offset 0 word fuel =
          some (i32 (u32 word ||| orPack w segf cell offset k), cell + k,
            offset + k * w, 0) ∧
        offset + k * w ≤ 32 ∧ 32 < offset + k * w + w := by
  intro fuel
  induction fuel with
  | zero =>
    intro offset cell word hoff hfuel _ _
    omega
  | succ fuel ih =>
    intro offset cell word hoff hfuel hlo hhi
    rw [writeSegLoop]
    by_cases hcond : offset + w ≤ 32
    · rw [if_pos hcond]
      simp only [ne_eq, not_true_eq_false, if_neg (by omega : ¬(0 : Nat) ≠ 0)]
      have hrange := i32_bounds (u32 word ||| u32 (shlInt (segf cell) offset))
      obtain ⟨k, hrec, hb1, hb2⟩ := ih (offset + w) (cell + 1)
        (orInt word (shlInt (segf cell) offset)) (by omega) (by omega)
        (i32_bounds _).1 (i32_bounds _).2
      have hkw : (k + 1) * w = k * w + w := by ring
      refine ⟨k + 1, ?_, by omega, by omega⟩
      rw [hrec]
      have hword : i32 (u32 (orInt word (shlInt (segf cell) offset)) |||
          orPack w segf (cell + 1) (offset + w) k) =
          i32 (u32 word ||| orPack w segf cell offset (k + 1)) := by
        rw [u32_or, u32_shl, orPack, Nat.lor_assoc]
      rw [hword]
      have hc : cell + 1 + k = cell + (k + 1) := by ring
      have ho : offset + w + k * w = offset + (k + 1) * w := by ring
      rw [hc, ho]
      simp
    · rw [if_neg hcond]
      refine ⟨0, ?_, by omega, by omega⟩
      rw [orPack, Nat.or_zero, i32_u32_id hlo hhi]
      simp

/-- The decode inner loop, entered with `maskerRank = 0`: it pushes one
decoded value per aligned step, extracting the `w`-bit fields of the word. -/
lemma readSegLoop_aligned (w : Nat) (hw : 1 ≤ w) (word old : Int) :
    ∀ (fuel offset : Nat),
      offset ≤ 32 → 33 ≤ fuel + offset →
      ∃ (k : Nat) (pushes : List Int),
        readSegLoop w word old offset 0 fuel = some (pushes, offset + k * w, 0) ∧
        offset + k * w ≤ 32 ∧ 32 < offset + k * w + w ∧ pushes.length = k ∧
        ∀ i, i < k → pushes.get? i =
          some (i32 ((u32 word >>> (offset + i * w)) % 2 ^ w)) := by
  intro fuel
  induction fuel with
  | zero =>
    intro offset hoff hfuel
    omega
  | succ fuel ih =>
    intro offset hoff hfuel
    rw [readSegLoop]
    by_cases hcond : offset + w ≤ 32
    · rw [if_pos hcond, if_pos rfl]
      obtain ⟨k, pushes, hrec, hb1, hb2, hlen, hvals⟩ := ih (offset + w) (by omega) (by omega)
      rw [hrec]
      have hkw : (k + 1) * w = k * w + w := by ring
      refine ⟨k + 1,
        (if shlInt word (32 - offset - w) < 0 then
            orInt (asrInt (andInt (shlInt word (32 - offset - w)) 2147483647) (32 - w))
              (shlInt 1 (w - 1))
          else asrInt (shlInt word (32 - offset - w)) (32 - w)) :: pushes,
        ?_, by omega, by omega, by simp [hlen], ?_⟩
      · have ho : offset + (k + 1) * w = offset + w + k * w := by ring
        rw [ho]
      · intro i hik
        rcases Nat.eq_zero_or_pos i with rfl | hipos
        · rw [List.get?_cons_zero, alignedVal word offset w hw hcond, Nat.zero_mul,
            Nat.add_zero]
        · obtain ⟨i', rfl⟩ : ∃ i', i = i' + 1 := ⟨i - 1, by omega⟩
          rw [List.get?_cons_succ, hvals i' (by omega),
            show offset + (i' + 1) * w = offset + w + i' * w by ring]
    · rw [if_neg hcond]
      exact ⟨0, [], by simp, by omega, by omega, rfl, by omega⟩

/-- The simulation invariant between the encoder state and the decoder state
at the top of their outer loops.  Either no value is split across the word
boundary (`maskerRank = 0` on both sides, next value starts the word), or a
value is split: the decoder's `maskerRank` marks where the split value began
in the previous word, the encoder's counts the bits already written
(`32 - maskerRank_read`), and the decoder's saved word holds the low bits of
the split value in its top bits. -/
def SegInv (w : Nat) (seg : List Int) (pad : Nat → Int) (N : Int)
    (cell offset maskerE maskerD : Nat) (oldD : Int) : Prop :=
  (maskerE = 0 ∧ maskerD = 0 ∧ offset = 0) ∨
  (1 ≤ maskerD ∧ maskerD ≤ 31 ∧ maskerE = 32 - maskerD ∧
    offset + 32 = maskerD + w ∧ (cell : Int) < N ∧
    -2147483648 ≤ oldD ∧ oldD < 2147483648 ∧
    u32 oldD >>> maskerD = (segGet seg pad cell).toNat % 2 ^ (32 - maskerD))

/-- What the simulation proves from a pair of corresponding states: the
encoder emits some words, the decoder consumes exactly those words, both
account the same bytes, the decoder pushes values covering at least the
remaining cells, and every pushed value whose cell index is in range is the
original segment value. -/
def SimConcl (w : Nat) (seg : List Int) (pad : Nat → Int) (N : Int) (fe fd : Nat)
    (cell offset maskerE maskerD : Nat) (oldD bytesE bytesD : Int)
    (outE : List StreamItem) (accD : List Int) (restD : List StreamItem) : Prop :=
  ∃ (words : List StreamItem) (pushes : List Int),
    writeSegOuter w seg pad N cell offset maskerE bytesE outE fe =
      some (bytesE + 4 * (words.length : Int), outE ++ words) ∧
    readSegOuter w N cell offset maskerD oldD bytesD accD (words ++ restD) fd =
      some (bytesD + 4 * (words.length : Int), accD ++ pushes, restD) ∧
    (N : Int) ≤ (cell : Int) + (pushes.length : Int) ∧
    ∀ i : Nat, ((cell + i : Nat) : Int) < N →
      pushes.get? i = some (segGet seg pad (cell + i))

lemma steps_unique {o w k1 k2 : Nat} (hw : 1 ≤ w)
    (h1 : o + k1 * w ≤ 32) (h1' : 32 < o + k1 * w + w)
    (h2 : o + k2 * w ≤ 32) (h2' : 32 < o + k2 * w + w) : k1 = k2 := by
  by_contra hne
  rcases Nat.lt_or_ge k1 k2 with h | h
  · have : (k1 + 1) * w ≤ k2 * w := Nat.mul_le_mul_right w (by omega)
    have hx : (k1 + 1) * w = k1 * w + w := by ring
    omega
  · have hk : k2 < k1 := by omega
    have : (k2 + 1) * w ≤ k1 * w := Nat.mul_le_mul_right w (by omega)
    have hx : (k2 + 1) * w = k2 * w + w := by ring
    omega

lemma extract_congr {x y m o ww : Nat} (h : x % 2 ^ m = y % 2 ^ m) (hm : o + ww ≤ m) :
    (x >>> o) % 2 ^ ww = (y >>> o) % 2 ^ ww := by
  have hx : (x >>> o) % 2 ^ ww = ((x % 2 ^ m) >>> o) % 2 ^ ww := by
    rw [mod_shr _ _ _ (by omega)]
    rw [Nat.mod_mod_of_dvd _ (pow_dvd_pow 2 (by omega))]
  have hy : (y >>> o) % 2 ^ ww = ((y % 2 ^ m) >>> o) % 2 ^ ww := by
    rw [mod_shr _ _ _ (by omega)]
    rw [Nat.mod_mod_of_dvd _ (pow_dvd_pow 2 (by omega))]
  rw [hx, hy, h]

lemma orInt_bounds (a b : Int) : -2147483648 ≤ orInt a b ∧ orInt a b < 2147483648 := by
  unfold orInt
  exact i32_bounds _

lemma shr_lt_pow_sub {x w s : Nat} (h : x < 2 ^ w) (hs : s ≤ w) : x >>> s < 2 ^ (w - s) := by
  rw [Nat.shiftRight_eq_div_pow]
  apply Nat.div_lt_of_lt_mul
  calc x < 2 ^ w := h
  _ = 2 ^ s * 2 ^ (w - s) := by rw [← pow_add]; congr 1; omega

/-- One word of the simulation, performed after the two inner loops: the
encoder has built word `W` consuming cells `[cell, cell1)` and leaving bit
position `offset1`; the decoder, fed any word agreeing with `W` below bit
`offset1`, pushes the matching values.  This lemma finishes the word (final
flush, exact fit, or split into the next word) and chains to the outer
simulation through `IH`. -/
lemma segSimStep (w : Nat) (hw : 1 ≤ w) (hw31 : w ≤ 31)
    (seg : List Int) (pad : Nat → Int) (N : Int)
    (hvals : ∀ i : Nat, (i : Int) < N → 0 ≤ segGet seg pad i ∧ segGet seg pad i < 2 ^ w)
    (μ : Nat)
    (IH : ∀ μ2, μ2 < μ → ∀ (fe2 fd2 cell2 offset2 maskerE2 maskerD2 : Nat)
        (oldD2 bytesE2 bytesD2 : Int) (outE2 : List StreamItem) (accD2 : List Int)
        (restD2 : List StreamItem),
        μ2 = (N.toNat - cell2) * 33 + offset2 + 1 → μ2 ≤ fe2 → μ2 ≤ fd2 → offset2 ≤ 31 →
        SegInv w seg pad N cell2 offset2 maskerE2 maskerD2 oldD2 →
        SimConcl w seg pad N fe2 fd2 cell2 offset2 maskerE2 maskerD2 oldD2 bytesE2
          bytesD2 outE2 accD2 restD2)
    (fe fd cell offset maskerE maskerD cell1 offset1 : Nat) (W oldD : Int)
    (bytesE bytesD : Int) (outE : List StreamItem) (accD : List Int)
    (restD : List StreamItem)
    (hμ : (N.toNat - cell1) * 33 + 33 ≤ μ)
    (hfe : (N.toNat - cell1) * 33 + 33 ≤ fe + 1)
    (hfd : (N.toNat - cell1) * 33 + 33 ≤ fd + 1)
    (hcell : (cell : Int) < N) (hc1 : cell < cell1)
    (ho1 : offset1 ≤ 32) (ho2 : 32 < offset1 + w)
    (hWlo : -2147483648 ≤ W) (hWhi : W < 2147483648)
    (hWlt : (cell1 : Int) < N → u32 W < 2 ^ offset1)
    (hwriteInner : writeSegLoop w (segGet seg pad) cell offset maskerE 0 34 =
      some (W, cell1, offset1, 0))
    (hreadInner : ∀ word : Int, u32 word % 2 ^ offset1 = u32 W % 2 ^ offset1 →
      ∃ pushes0 : List Int, readSegLoop w word oldD offset maskerD 34 =
          some (pushes0, offset1, 0) ∧
        pushes0.length = cell1 - cell ∧
        ∀ i : Nat, i < cell1 - cell → ((cell + i : Nat) : Int) < N →
          pushes0.get? i = some (segGet seg pad (cell + i))) :
    SimConcl w seg pad N (fe + 1) (fd + 1) cell offset maskerE maskerD oldD bytesE
      bytesD outE accD restD := by
  by_cases hfin : (cell1 : Int) ≥ N
  · -- final word: the encoder flushes and stops, the decoder's next outer
    -- test fails
    obtain ⟨pushes0, hri, hlen0, hv0⟩ := hreadInner W rfl
    obtain ⟨fd', rfl⟩ : ∃ fd', fd = fd' + 1 := ⟨fd - 1, by omega⟩
    refine ⟨[StreamItem.int32 W], pushes0, ?_, ?_, ?_, ?_⟩
    · rw [writeSegOuter, if_pos hcell]
      simp only [hwriteInner, if_pos hfin]
      norm_num
    · rw [readSegOuter, if_pos hcell]
      simp only [List.singleton_append, readInt, hri]
      rw [readSegOuter, if_neg (by
        simp only [hlen0]
        push_cast
        omega)]
      norm_num
    · rw [hlen0]
      push_cast
      omega
    · intro i hi
      refine hv0 i ?_ hi
      have := hi
      push_cast at this
      omega
  · push_neg at hfin
    obtain ⟨hv1nn, hv1lt⟩ := hvals cell1 hfin
    by_cases hoff32 : offset1 = 32
    · -- exact fit: the container is full, no value is split
      obtain ⟨pushes0, hri, hlen0, hv0⟩ := hreadInner W rfl
      subst hoff32
      have hIH := IH ((N.toNat - cell1) * 33 + 0 + 1) (by omega) fe fd cell1 0 0 0 W
        (bytesE + 4) (bytesD + 4) (outE ++ [StreamItem.int32 W]) (accD ++ pushes0) restD
        rfl (by omega) (by omega) (by omega) (Or.inl ⟨rfl, rfl, rfl⟩)
      obtain ⟨words', pushes', hW', hR', hN', hV'⟩ := hIH
      refine ⟨StreamItem.int32 W :: words', pushes0 ++ pushes', ?_, ?_, ?_, ?_⟩
      · rw [writeSegOuter, if_pos hcell]
        simp only [hwriteInner]
        rw [if_neg (show ¬((cell1 : Int) ≥ N) by omega)]
        simp only [reduceIte]
        rw [show (32 : Nat) % 32 = 0 by decide, hW']
        rw [List.append_assoc, List.singleton_append]
        congr 1
        rw [Prod.mk.injEq]
        refine ⟨?_, rfl⟩
        simp only [List.length_cons]
        push_cast
        ring
      · rw [readSegOuter, if_pos hcell]
        simp only [List.cons_append, readInt, hri]
        simp only [reduceIte]
        rw [show (32 : Nat) % 32 = 0 by decide, hlen0,
          show cell + (cell1 - cell) = cell1 by omega, hR']
        rw [List.append_assoc]
        congr 2
        simp only [List.length_cons]
        push_cast
        ring
      · rw [List.length_append, hlen0]
        push_cast at hN' ⊢
        omega
      · intro i hi
        by_cases hi0 : i < pushes0.length
        · rw [List.get?_append hi0]
          exact hv0 i (by omega) hi
        · rw [List.get?_append_right (le_of_not_lt hi0)]
          have hidx : cell1 + (i - pushes0.length) = cell + i := by omega
          have := hV' (i - pushes0.length) (by rw [hidx]; exact hi)
          rw [hidx] at this
          exact this
    · -- split: the next value's low bits go into this word's top bits
      have hoffpos : 1 ≤ offset1 := by omega
      obtain ⟨pushes0, hri, hlen0, hv0⟩ := hreadInner
        (orInt W (shlInt (segGet seg pad cell1) offset1)) (by
          rw [u32_or, lor_mod_two_pow, u32_shl]
          have hz : ((u32 (segGet seg pad cell1) <<< offset1) % 4294967296) %
              2 ^ offset1 = 0 := by
            rw [Nat.mod_mod_of_dvd _ (by
                rw [show (4294967296 : Nat) = 2 ^ 32 by decide]
                exact pow_dvd_pow 2 (by omega)),
              Nat.shiftLeft_eq, Nat.mul_mod_left]
          rw [hz, Nat.or_zero])
      have hofm : (offset1 + w) % 32 = offset1 + w - 32 := by omega
      have hWlt' := hWlt hfin
      have hv1u : u32 (segGet seg pad cell1) = (segGet seg pad cell1).toNat := by
        apply u32_of_bounds hv1nn
        calc segGet seg pad cell1 < 2 ^ w := hv1lt
        _ ≤ (2 : Int) ^ 31 := pow_le_pow_right (by omega) (by omega)
        _ ≤ (4294967296 : Int) := by norm_num
      have hv1tn : (segGet seg pad cell1).toNat < 2 ^ w := by
        have : ((segGet seg pad cell1).toNat : Int) < 2 ^ w := by
          rw [Int.toNat_of_nonneg hv1nn]
          exact hv1lt
        exact_mod_cast this
      have hsplitbits : u32 (orInt W (shlInt (segGet seg pad cell1) offset1)) >>>
          offset1 = (segGet seg pad cell1).toNat % 2 ^ (32 - offset1) := by
        rw [u32_or, u32_shl, hv1u, lor_shr]
        have hzero : u32 W >>> offset1 = 0 := by
          rw [Nat.shiftRight_eq_div_pow]
          exact Nat.div_eq_of_lt hWlt'
        have hkeep : (((segGet seg pad cell1).toNat <<< offset1) % 4294967296) >>>
            offset1 = (segGet seg pad cell1).toNat % 2 ^ (32 - offset1) := by
          rw [show (4294967296 : Nat) = 2 ^ 32 by decide,
            shl_mod_high _ (show offset1 ≤ 32 by omega),
            shl_shr_of_le _ (le_refl offset1), Nat.sub_self, Nat.shiftLeft_zero]
        rw [hzero, hkeep, Nat.zero_or]
      have hIH := IH ((N.toNat - cell1) * 33 + (offset1 + w - 32) + 1) (by omega)
        fe fd cell1 (offset1 + w - 32) (32 - offset1) offset1
        (orInt W (shlInt (segGet seg pad cell1) offset1))
        (bytesE + 4) (bytesD + 4)
        (outE ++ [StreamItem.int32 (orInt W (shlInt (segGet seg pad cell1) offset1))])
        (accD ++ pushes0) restD rfl (by omega) (by omega) (by omega)
        (Or.inr ⟨by omega, by omega, rfl, by omega, hfin,
          (orInt_bounds _ _).1, (orInt_bounds _ _).2, hsplitbits⟩)
      obtain ⟨words', pushes', hW', hR', hN', hV'⟩ := hIH
      refine ⟨StreamItem.int32 (orInt W (shlInt (segGet seg pad cell1) offset1)) :: words',
        pushes0 ++ pushes', ?_, ?_, ?_, ?_⟩
      · rw [writeSegOuter, if_pos hcell]
        simp only [hwriteInner]
        rw [if_neg (show ¬((cell1 : Int) ≥ N) by omega)]
        rw [if_neg hoff32, if_neg hoff32, if_neg hoff32, hofm, hW']
        rw [List.append_assoc, List.singleton_append]
        congr 1
        rw [Prod.mk.injEq]
        refine ⟨?_, rfl⟩
        simp only [List.length_cons]
        push_cast
        ring
      · rw [readSegOuter, if_pos hcell]
        simp only [List.cons_append, readInt, hri]
        rw [if_neg hoff32, if_neg hoff32, hofm, hlen0,
          show cell + (cell1 - cell) = cell1 by omega, hR']
        rw [List.append_assoc]
        congr 2
        simp only [List.length_cons]
        push_cast
        ring
      · rw [List.length_append, hlen0]
        push_cast at hN' ⊢
        omega
      · intro i hi
        by_cases hi0 : i < pushes0.length
        · rw [List.get?_append hi0]
          exact hv0 i (by omega) hi
        · rw [List.get?_append_right (le_of_not_lt hi0)]
          have hidx : cell1 + (i - pushes0.length) = cell + i := by omega
          have hgv := hV' (i - pushes0.length) (by rw [hidx]; exact hi)
          rw [hidx] at hgv
          exact hgv

lemma u32_seg_lt {w : Nat} (hw31 : w ≤ 31) {seg : List Int} {pad : Nat → Int} {N : Int}
    (hvals : ∀ i : Nat, (i : Int) < N → 0 ≤ segGet seg pad i ∧ segGet seg pad i < 2 ^ w)
    (j : Nat) (hj : (j : Int) < N) : u32 (segGet seg pad j) < 2 ^ w := by
  obtain ⟨hnn, hlt⟩ := hvals j hj
  rw [u32_of_bounds hnn (by
    calc segGet seg pad j < 2 ^ w := hlt
    _ ≤ (2 : Int) ^ 31 := pow_le_pow_right (by omega) (by omega)
    _ ≤ 4294967296 := by norm_num)]
  have h : ((segGet seg pad j).toNat : Int) < 2 ^ w := by
    rw [Int.toNat_of_nonneg hnn]
    exact hlt
  exact_mod_cast h

lemma i32_u32_mod_seg {w : Nat} (hw31 : w ≤ 31) {seg : List Int} {pad : Nat → Int} {N : Int}
    (hvals : ∀ i : Nat, (i : Int) < N → 0 ≤ segGet seg pad i ∧ segGet seg pad i < 2 ^ w)
    (j : Nat) (hj : (j : Int) < N) :
    i32 (u32 (segGet seg pad j) % 2 ^ w) = segGet seg pad j := by
  obtain ⟨hnn, hlt⟩ := hvals j hj
  have hu := u32_seg_lt hw31 hvals j hj
  have htn : (segGet seg pad j).toNat < 2 ^ w := by
    have h : ((segGet seg pad j).toNat : Int) < 2 ^ w := by
      rw [Int.toNat_of_nonneg hnn]
      exact hlt
    exact_mod_cast h
  rw [Nat.mod_eq_of_lt hu,
    u32_of_bounds hnn (by
      calc segGet seg pad j < 2 ^ w := hlt
      _ ≤ (2 : Int) ^ 31 := pow_le_pow_right (by omega) (by omega)
      _ ≤ 4294967296 := by norm_num),
    i32_of_lt (lt_of_lt_of_le htn (by
      calc (2 : Nat) ^ w ≤ 2 ^ 31 := Nat.pow_le_pow_right (by omega) (by omega)
      _ ≤ 2147483648 := by norm_num)),
    Int.toNat_of_nonneg hnn]

/-- The outer simulation: from any pair of related encoder / decoder states
(`SegInv`), with sufficient fuel on both sides, the encoder's emitted words
are consumed exactly by the decoder and every in-range cell decodes to the
original value. -/
lemma segSim (w : Nat) (hw : 1 ≤ w) (hw31 : w ≤ 31)
    (seg : List Int) (pad : Nat → Int) (N : Int)
    (hvals : ∀ i : Nat, (i : Int) < N → 0 ≤ segGet seg pad i ∧ segGet seg pad i < 2 ^ w) :
    ∀ (μ fe fd cell offset maskerE maskerD : Nat) (oldD bytesE bytesD : Int)
      (outE : List StreamItem) (accD : List Int) (restD : List StreamItem),
      μ = (N.toNat - cell) * 33 + offset + 1 → μ ≤ fe → μ ≤ fd → offset ≤ 31 →
      SegInv w seg pad N cell offset maskerE maskerD oldD →
      SimConcl w seg pad N fe fd cell offset maskerE maskerD oldD bytesE bytesD
        outE accD restD := by
  intro μ
  induction μ using Nat.strong_induction_on with
  | _ μ IH =>
  intro fe fd cell offset maskerE maskerD oldD bytesE bytesD outE accD restD
    hμ hfe hfd hoff hinv
  obtain ⟨fe', rfl⟩ : ∃ fe', fe = fe' + 1 := ⟨fe - 1, by omega⟩
  obtain ⟨fd', rfl⟩ : ∃ fd', fd = fd' + 1 := ⟨fd - 1, by omega⟩
  by_cases hcell : (cell : Int) < N
  · have hcellN : cell < N.toNat := by omega
    have hIH' : ∀ μ2, μ2 < μ → ∀ (fe2 fd2 cell2 offset2 maskerE2 maskerD2 : Nat)
        (oldD2 bytesE2 bytesD2 : Int) (outE2 : List StreamItem) (accD2 : List Int)
        (restD2 : List StreamItem),
        μ2 = (N.toNat - cell2) * 33 + offset2 + 1 → μ2 ≤ fe2 → μ2 ≤ fd2 → offset2 ≤ 31 →
        SegInv w seg pad N cell2 offset2 maskerE2 maskerD2 oldD2 →
        SimConcl w seg pad N fe2 fd2 cell2 offset2 maskerE2 maskerD2 oldD2 bytesE2
          bytesD2 outE2 accD2 restD2 := by
      intro μ2 h2 fe2 fd2 cell2 offset2 mE2 mD2 oldD2 bE2 bD2 oE2 aD2 rD2 h1 h3 h4 h5 h6
      exact IH μ2 h2 fe2 fd2 cell2 offset2 mE2 mD2 oldD2 bE2 bD2 oE2 aD2 rD2 h1 h3 h4 h5 h6
    rcases hinv with ⟨hme, hmd, hoff0⟩ | ⟨hd1, hd31, hme, hoffeq, hcellB, holo, hohi, hpat⟩
    · -- state A: no split value pending, word-aligned
      subst hme
      subst hmd
      subst hoff0
      obtain ⟨k, hWinner, hb1, hb2⟩ := writeSegLoop_aligned w hw (segGet seg pad) 34 0 cell 0
        (by omega) (by omega) (by norm_num) (by norm_num)
      simp only [Nat.zero_add, show u32 (0 : Int) = 0 by decide, Nat.zero_or] at hWinner hb1 hb2
      have hk1 : 1 ≤ k := by
        by_contra h0
        have hk0 : k = 0 := by omega
        subst hk0
        simp at hb2
        omega
      have horp : orPack w (segGet seg pad) cell 0 k < 4294967296 := orPack_lt _ _ _ _ _
      have hu32W : u32 (i32 (orPack w (segGet seg pad) cell 0 k)) =
          orPack w (segGet seg pad) cell 0 k := by
        rw [u32_i32]
        exact Nat.mod_eq_of_lt horp
      have hprevA : ∀ i : Nat, ((cell + i : Nat) : Int) < N →
          ∀ j, j < i → u32 (segGet seg pad (cell + j)) < 2 ^ w := by
        intro i hi j hj
        obtain ⟨hnn, hlt⟩ := hvals (cell + j) (by push_cast at hi ⊢; omega)
        rw [u32_of_bounds hnn (by
          calc segGet seg pad (cell + j) < 2 ^ w := hlt
          _ ≤ (2 : Int) ^ 31 := pow_le_pow_right (by omega) (by omega)
          _ ≤ 4294967296 := by norm_num)]
        have : ((segGet seg pad (cell + j)).toNat : Int) < 2 ^ w := by
          rw [Int.toNat_of_nonneg hnn]
          exact hlt
        exact_mod_cast this
      apply segSimStep w hw hw31 seg pad N hvals μ hIH' fe' fd' cell 0 0 0 (cell + k)
        (k * w) (i32 (orPack w (segGet seg pad) cell 0 k)) oldD bytesE bytesD outE accD
        restD (by omega) (by omega) (by omega) hcell (by omega) hb1 hb2
        (i32_bounds _).1 (i32_bounds _).2
      · -- hWlt: when every cell in the word is real the word has no bits at
        -- or above the final offset
        intro hfin
        rw [hu32W]
        have := orPack_lt_strict w (segGet seg pad) k cell 0 (by omega)
          (fun j hj => hprevA k hfin j hj)
        simpa using this
      · exact hWinner
      · -- decoder side on any word agreeing below k*w
        intro word hcong
        obtain ⟨kd, pushes, hrl, hdb1, hdb2, hdlen, hdvals⟩ :=
          readSegLoop_aligned w hw word oldD 34 0 (by omega) (by omega)
        simp only [Nat.zero_add] at hrl hdb1 hdb2 hdvals
        have hkd : kd = k := @steps_unique 0 w kd k hw (by omega) (by omega)
          (by omega) (by omega)
        subst hkd
        refine ⟨pushes, hrl, by omega, ?_⟩
        intro i hik hreal
        rw [hdvals i (by omega)]
        have hext : (u32 word >>> (i * w)) % 2 ^ w =
            (u32 (i32 (orPack w (segGet seg pad) cell 0 kd)) >>> (i * w)) % 2 ^ w := by
          apply extract_congr hcong
          have : (i + 1) * w ≤ kd * w := Nat.mul_le_mul_right w (by omega)
          have hh : (i + 1) * w = i * w + w := by ring
          omega
        obtain ⟨hnn, hlt⟩ := hvals (cell + i) (by exact_mod_cast hreal)
        have hu32v : u32 (segGet seg pad (cell + i)) = (segGet seg pad (cell + i)).toNat := by
          apply u32_of_bounds hnn
          calc segGet seg pad (cell + i) < 2 ^ w := hlt
          _ ≤ (2 : Int) ^ 31 := pow_le_pow_right (by omega) (by omega)
          _ ≤ 4294967296 := by norm_num
        have htn : (segGet seg pad (cell + i)).toNat < 2 ^ w := by
          have : ((segGet seg pad (cell + i)).toNat : Int) < 2 ^ w := by
            rw [Int.toNat_of_nonneg hnn]
            exact hlt
          exact_mod_cast this
        have hOP := orPack_extract w hw (segGet seg pad) kd cell 0 i (by omega) (by omega)
          (fun j hj => hprevA i hreal j hj)
        simp only [Nat.zero_add] at hOP
        rw [hext, hu32W, hOP, hu32v, Nat.mod_eq_of_lt htn,
          i32_of_lt (lt_of_lt_of_le htn (by
            calc (2 : Nat) ^ w ≤ 2 ^ 31 := Nat.pow_le_pow_right (by omega) (by omega)
            _ ≤ 2147483648 := by norm_num)),
          Int.toNat_of_nonneg hnn]
    · -- state B: a value is split across the word boundary
      obtain ⟨hvnn, hvlt⟩ := hvals cell hcell
      have hvtn : (segGet seg pad cell).toNat < 2 ^ w := by
        have h : ((segGet seg pad cell).toNat : Int) < 2 ^ w := by
          rw [Int.toNat_of_nonneg hvnn]
          exact hvlt
        exact_mod_cast h
      have hvbig : segGet seg pad cell < 4294967296 := by
        calc segGet seg pad cell < 2 ^ w := hvlt
        _ ≤ (2 : Int) ^ 31 := pow_le_pow_right (by omega) (by omega)
        _ ≤ 4294967296 := by norm_num
      have hole : offset ≤ w := by omega
      by_cases hcarry : offset + w ≤ 32
      · -- the split value's high part fits: the encoder completes it, then
        -- packs aligned values; the decoder recombines the two parts
        have hasr : asrInt (segGet seg pad cell) (w - offset) =
            (((segGet seg pad cell).toNat >>> (w - offset) : Nat) : Int) := by
          conv_lhs => rw [← Int.toNat_of_nonneg hvnn]
          exact asrInt_natCast _ _
        have hT0lt : (segGet seg pad cell).toNat >>> (w - offset) < 2 ^ offset := by
          have h := shr_lt_pow_sub hvtn (show w - offset ≤ w by omega)
          rwa [show w - (w - offset) = offset by omega] at h
        have hWeq : orInt 0 (asrInt (segGet seg pad cell) (w - offset)) =
            i32 ((segGet seg pad cell).toNat >>> (w - offset)) := by
          unfold orInt
          rw [hasr, show u32 (0 : Int) = 0 by decide, Nat.zero_or, u32_natCast, i32_mod]
        obtain ⟨k, hWrec, hb1, hb2⟩ := writeSegLoop_aligned w hw (segGet seg pad) 33
          offset (cell + 1) (i32 ((segGet seg pad cell).toNat >>> (w - offset)))
          (by omega) (by omega) (i32_bounds _).1 (i32_bounds _).2
        have hu32T0 : u32 (i32 ((segGet seg pad cell).toNat >>> (w - offset))) =
            (segGet seg pad cell).toNat >>> (w - offset) := by
          rw [u32_i32]
          apply Nat.mod_eq_of_lt
          calc (segGet seg pad cell).toNat >>> (w - offset) < 2 ^ offset := hT0lt
          _ ≤ 2 ^ 31 := Nat.pow_le_pow_right (by omega) (by omega)
          _ < 4294967296 := by norm_num
        have hu32W : u32 (i32 ((segGet seg pad cell).toNat >>> (w - offset) |||
            orPack w (segGet seg pad) (cell + 1) offset k)) =
            (segGet seg pad cell).toNat >>> (w - offset) |||
              orPack w (segGet seg pad) (cell + 1) offset k := by
          rw [u32_i32]
          apply Nat.mod_eq_of_lt
          rw [show (4294967296 : Nat) = 2 ^ 32 by decide]
          exact Nat.bitwise_lt_two_pow
            (lt_of_lt_of_le hT0lt (Nat.pow_le_pow_right (by omega) (by omega)))
            (by
              rw [show (2 : Nat) ^ 32 = 4294967296 by decide]
              exact orPack_lt _ _ _ _ _)
        have hwriteInner : writeSegLoop w (segGet seg pad) cell offset maskerE 0 34 =
            some (i32 ((segGet seg pad cell).toNat >>> (w - offset) |||
                orPack w (segGet seg pad) (cell + 1) offset k),
              cell + 1 + k, offset + k * w, 0) := by
          rw [show (34 : Nat) = 33 + 1 from rfl, writeSegLoop, if_pos hcarry]
          simp only [ne_eq]
          rw [if_pos (show ¬maskerE = 0 by omega), hWeq, hWrec, hu32T0]
        apply segSimStep w hw hw31 seg pad N hvals μ hIH' fe' fd' cell offset maskerE
          maskerD (cell + 1 + k) (offset + k * w)
          (i32 ((segGet seg pad cell).toNat >>> (w - offset) |||
            orPack w (segGet seg pad) (cell + 1) offset k))
          oldD bytesE bytesD outE accD restD
          (by omega) (by omega) (by omega) hcell (by omega) hb1 hb2
          (i32_bounds _).1 (i32_bounds _).2
        · -- the word has no bits at or above the final offset when every
          -- packed cell is real
          intro hfin
          rw [hu32W]
          exact Nat.bitwise_lt_two_pow
            (lt_of_lt_of_le hT0lt (Nat.pow_le_pow_right (by omega) (by omega)))
            (orPack_lt_strict w (segGet seg pad) k (cell + 1) offset hb1
              (fun j hj => u32_seg_lt hw31 hvals (cell + 1 + j)
                (by push_cast at hfin ⊢; omega)))
        · exact hwriteInner
        · -- decoder side on any word agreeing below the final offset
          intro word hcong
          obtain ⟨kd, pushesR, hrl, hdb1, hdb2, hdlen, hdvals⟩ :=
            readSegLoop_aligned w hw word oldD 33 offset (by omega) (by omega)
          have hkd : kd = k := @steps_unique offset w kd k hw hdb1 hdb2 hb1 hb2
          rw [hkd] at hrl hdlen hdvals
          have hwordlow : u32 word % 2 ^ offset =
              (segGet seg pad cell).toNat >>> (w - offset) := by
            have h1 : u32 word % 2 ^ offset =
                (u32 word % 2 ^ (offset + k * w)) % 2 ^ offset :=
              (Nat.mod_mod_of_dvd _ (pow_dvd_pow 2 (by omega))).symm
            rw [h1, hcong, Nat.mod_mod_of_dvd _ (pow_dvd_pow 2 (by omega)), hu32W,
              lor_mod_two_pow, Nat.mod_eq_of_lt hT0lt,
              orPack_mod_low w (segGet seg pad) k (cell + 1) offset hb1, Nat.or_zero]
          have hvdec : orInt (i32 ((u32 word % 2 ^ offset) <<< (w - offset)))
              (i32 (u32 oldD >>> maskerD)) = segGet seg pad cell := by
            rw [hwordlow, hpat, show 32 - maskerD = w - offset by omega]
            unfold orInt
            have hA : ((segGet seg pad cell).toNat >>> (w - offset)) <<< (w - offset) <
                4294967296 := by
              calc ((segGet seg pad cell).toNat >>> (w - offset)) <<< (w - offset) <
                  2 ^ (offset + (w - offset)) := Nat.shiftLeft_lt hT0lt
              _ ≤ 2 ^ 31 := Nat.pow_le_pow_right (by omega) (by omega)
              _ < 4294967296 := by norm_num
            have hB : (segGet seg pad cell).toNat % 2 ^ (w - offset) < 4294967296 :=
              lt_of_le_of_lt (Nat.mod_le _ _) (lt_of_lt_of_le hvtn (by
                calc (2 : Nat) ^ w ≤ 2 ^ 31 := Nat.pow_le_pow_right (by omega) (by omega)
                _ ≤ 4294967296 := by norm_num))
            rw [u32_i32, u32_i32, Nat.mod_eq_of_lt hA, Nat.mod_eq_of_lt hB,
              Nat.shiftLeft_eq, Nat.shiftRight_eq_div_pow,
              lor_eq_add_of_lt (Nat.mod_lt _ (Nat.pos_pow_of_pos _ (by omega)))]
            have hdm : (segGet seg pad cell).toNat / 2 ^ (w - offset) * 2 ^ (w - offset) +
                (segGet seg pad cell).toNat % 2 ^ (w - offset) =
                (segGet seg pad cell).toNat := by
              rw [Nat.mul_comm ((segGet seg pad cell).toNat / 2 ^ (w - offset))
                (2 ^ (w - offset))]
              exact Nat.div_add_mod _ _
            rw [hdm, i32_of_lt (lt_of_lt_of_le hvtn (by
                calc (2 : Nat) ^ w ≤ 2 ^ 31 := Nat.pow_le_pow_right (by omega) (by omega)
                _ ≤ 2147483648 := by norm_num)),
              Int.toNat_of_nonneg hvnn]
          refine ⟨segGet seg pad cell :: pushesR, ?_, ?_, ?_⟩
          · rw [show (34 : Nat) = 33 + 1 from rfl, readSegLoop, if_pos hcarry,
              if_neg (show ¬maskerD = 0 by omega)]
            simp only [maskedNextVal word offset w hw (by omega) hole,
              oldPartVal oldD maskerD (by omega) holo hohi, hvdec, hrl]
          · simp only [List.length_cons, hdlen]
            omega
          · intro i hik hreal
            rcases Nat.eq_zero_or_pos i with rfl | hipos
            · rw [List.get?_cons_zero, Nat.add_zero]
            · obtain ⟨i', rfl⟩ : ∃ i', i = i' + 1 := ⟨i - 1, by omega⟩
              rw [List.get?_cons_succ, hdvals i' (by omega)]
              have hval : i32 ((u32 word >>> (offset + i' * w)) % 2 ^ w) =
                  segGet seg pad (cell + (i' + 1)) := by
                have hext : (u32 word >>> (offset + i' * w)) % 2 ^ w =
                    (u32 (i32 ((segGet seg pad cell).toNat >>> (w - offset) |||
                      orPack w (segGet seg pad) (cell + 1) offset k)) >>>
                        (offset + i' * w)) % 2 ^ w := by
                  apply extract_congr hcong
                  have h1 : (i' + 1) * w ≤ k * w := Nat.mul_le_mul_right w (by omega)
                  have h2 : (i' + 1) * w = i' * w + w := by ring
                  omega
                rw [hext, hu32W, lor_shr, lor_mod_two_pow]
                have hT : ((segGet seg pad cell).toNat >>> (w - offset)) >>>
                    (offset + i' * w) = 0 := by
                  rw [Nat.shiftRight_eq_div_pow]
                  exact Nat.div_eq_of_lt (lt_of_lt_of_le hT0lt
                    (Nat.pow_le_pow_right (by omega) (by omega)))
                have hOP := orPack_extract w hw (segGet seg pad) k (cell + 1) offset i'
                  (by omega) hb1 (fun j hj => u32_seg_lt hw31 hvals (cell + 1 + j)
                    (by push_cast at hreal ⊢; omega))
                rw [hT, Nat.zero_mod, Nat.zero_or, hOP,
                  show cell + 1 + i' = cell + (i' + 1) by ring]
                exact i32_u32_mod_seg hw31 hvals (cell + (i' + 1)) hreal
              rw [hval]
      · -- the next value does not fit at all: both inner loops return at
        -- once, the encoder emits the low bits of the split value shifted to
        -- `offset`, and both sides re-enter the split state with a strictly
        -- smaller offset
        have hofm : (offset + w) % 32 = offset + w - 32 := by omega
        have hword2pat : u32 (orInt 0 (shlInt (segGet seg pad cell) offset)) >>> offset =
            (segGet seg pad cell).toNat % 2 ^ (32 - offset) := by
          rw [u32_or, u32_shl, show u32 (0 : Int) = 0 by decide, Nat.zero_or,
            u32_of_bounds hvnn hvbig, show (4294967296 : Nat) = 2 ^ 32 by decide,
            shl_mod_high _ (show offset ≤ 32 by omega),
            shl_shr_of_le _ (le_refl offset), Nat.sub_self, Nat.shiftLeft_zero]
        obtain ⟨words', pushes', hW', hR', hN', hV'⟩ := hIH'
          ((N.toNat - cell) * 33 + (offset + w - 32) + 1) (by omega) fe' fd' cell
          (offset + w - 32) (32 - offset) offset
          (orInt 0 (shlInt (segGet seg pad cell) offset)) (bytesE + 4) (bytesD + 4)
          (outE ++ [StreamItem.int32 (orInt 0 (shlInt (segGet seg pad cell) offset))])
          accD restD rfl (by omega) (by omega) (by omega)
          (Or.inr ⟨by omega, by omega, rfl, by omega, hcell, (orInt_bounds _ _).1,
            (orInt_bounds _ _).2, hword2pat⟩)
        have hwi : writeSegLoop w (segGet seg pad) cell offset maskerE 0 34 =
            some (0, cell, offset, maskerE) := by
          rw [show (34 : Nat) = 33 + 1 from rfl, writeSegLoop, if_neg hcarry]
        have hri : readSegLoop w (orInt 0 (shlInt (segGet seg pad cell) offset)) oldD
            offset maskerD 34 = some ([], offset, maskerD) := by
          rw [show (34 : Nat) = 33 + 1 from rfl, readSegLoop, if_neg hcarry]
        have hne32 : ¬offset = 32 := by omega
        refine ⟨StreamItem.int32 (orInt 0 (shlInt (segGet seg pad cell) offset)) :: words',
          pushes', ?_, ?_, ?_, ?_⟩
        · rw [writeSegOuter, if_pos hcell]
          simp only [hwi]
          rw [if_neg (show ¬((cell : Int) ≥ N) by omega)]
          rw [if_neg hne32, if_neg hne32, if_neg hne32, hofm, hW']
          rw [List.append_assoc, List.singleton_append]
          congr 1
          rw [Prod.mk.injEq]
          refine ⟨?_, rfl⟩
          simp only [List.length_cons]
          push_cast
          ring
        · rw [readSegOuter, if_pos hcell]
          simp only [List.cons_append, readInt, hri]
          rw [if_neg hne32, if_neg hne32, hofm]
          simp only [List.length_nil, Nat.add_zero, List.append_nil]
          rw [hR']
          congr 2
          simp only [List.length_cons]
          push_cast
          ring
        · exact hN'
        · exact hV'
  · -- all cells done: both loops exit
    refine ⟨[], [], ?_, ?_, ?_, ?_⟩
    · rw [writeSegOuter, if_neg hcell]
      simp
    · rw [readSegOuter, if_neg hcell]
      simp
    · push_cast
      omega
    · intro i hi
      push_cast at hi
      omega

/-- Word count of the encoder for widths up to 16 bits: from a state owing
`bits` more payload bits (all of the remaining cells, plus the pending part
of a split value), the outer loop emits exactly `⌈bits / 32⌉` more words.
For these widths the pathological skip (`offset + w > 32` at the top of an
iteration) cannot occur. -/
lemma writeSegOuter_count (w : Nat) (hw : 1 ≤ w) (hw16 : w ≤ 16)
    (seg : List Int) (pad : Nat → Int) (N : Int) :
    ∀ (μ : Nat), ∀ (fuel cell offset maskerE : Nat) (bytes : Int)
      (out : List StreamItem) (bits : Nat),
      μ = (N.toNat - cell) * 33 + offset + 1 → μ ≤ fuel → (cell : Int) < N →
      ((maskerE = 0 ∧ offset = 0 ∧ bits = (N.toNat - cell) * w) ∨
        (maskerE ≠ 0 ∧ 1 ≤ offset ∧ offset < w ∧
          bits = offset + (N.toNat - cell - 1) * w)) →
      ∃ words : List StreamItem,
        writeSegOuter w seg pad N cell offset maskerE bytes out fuel =
          some (bytes + 4 * (words.length : Int), out ++ words) ∧
        words.length = (bits + 31) / 32 := by
  intro μ
  induction μ using Nat.strong_induction_on with
  | _ μ IH =>
  intro fuel cell offset maskerE bytes out bits hμ hfuel hcell hinv
  obtain ⟨f, rfl⟩ : ∃ f, fuel = f + 1 := ⟨fuel - 1, by omega⟩
  have hcellN : cell < N.toNat := by omega
  rcases hinv with ⟨hme, hoff0, hbits⟩ | ⟨hmene, hoffpos, hoffw, hbits⟩
  · -- aligned state: the next value starts the word
    subst hme
    subst hoff0
    obtain ⟨k, hWinner, hb1, hb2⟩ := writeSegLoop_aligned w hw (segGet seg pad) 34 0 cell 0
      (by omega) (by omega) (by norm_num) (by norm_num)
    simp only [Nat.zero_add, show u32 (0 : Int) = 0 by decide, Nat.zero_or]
      at hWinner hb1 hb2
    have hk1 : 1 ≤ k := by
      by_contra h0
      have hk0 : k = 0 := by omega
      subst hk0
      simp at hb2
      omega
    rw [writeSegOuter, if_pos hcell]
    simp only [hWinner]
    by_cases hfin : ((cell + k : Nat) : Int) ≥ N
    · rw [if_pos hfin]
      refine ⟨[StreamItem.int32 (i32 (orPack w (segGet seg pad) cell 0 k))], ?_, ?_⟩
      · norm_num
      · have hRk : N.toNat - cell ≤ k := by push_cast at hfin; omega
        have hRw : (N.toNat - cell) * w ≤ k * w := Nat.mul_le_mul_right w hRk
        have hR1 : 1 * w ≤ (N.toNat - cell) * w := Nat.mul_le_mul_right w (by omega)
        simp only [List.length_singleton]
        omega
    · rw [if_neg hfin]
      push_neg at hfin
      have hcellN1 : cell + k < N.toNat := by push_cast at hfin; omega
      by_cases h32 : k * w = 32
      · rw [if_pos h32, if_pos h32, if_pos h32, h32,
          show (32 : Nat) % 32 = 0 by decide]
        obtain ⟨words', hrec, hlen⟩ := IH ((N.toNat - (cell + k)) * 33 + 0 + 1)
          (by omega) f (cell + k) 0 0 (bytes + 4)
          (out ++ [StreamItem.int32 (i32 (orPack w (segGet seg pad) cell 0 k))])
          ((N.toNat - (cell + k)) * w) rfl (by omega) hfin (Or.inl ⟨rfl, rfl, rfl⟩)
        refine ⟨StreamItem.int32 (i32 (orPack w (segGet seg pad) cell 0 k)) :: words',
          ?_, ?_⟩
        · rw [hrec, List.append_assoc, List.singleton_append]
          congr 1
          rw [Prod.mk.injEq]
          refine ⟨?_, rfl⟩
          simp only [List.length_cons]
          push_cast
          ring
        · have hsplit : (N.toNat - cell) * w = (N.toNat - (cell + k)) * w + k * w := by
            rw [← Nat.add_mul]
            congr 1
            omega
          simp only [List.length_cons, hlen]
          have hk32 := h32
          omega
      · rw [if_neg h32, if_neg h32, if_neg h32,
          show (k * w + w) % 32 = k * w + w - 32 by omega]
        obtain ⟨words', hrec, hlen⟩ := IH
          ((N.toNat - (cell + k)) * 33 + (k * w + w - 32) + 1) (by omega) f (cell + k)
          (k * w + w - 32) (32 - k * w) (bytes + 4)
          (out ++ [StreamItem.int32 (orInt (i32 (orPack w (segGet seg pad) cell 0 k))
            (shlInt (segGet seg pad (cell + k)) (k * w)))])
          ((k * w + w - 32) + (N.toNat - (cell + k) - 1) * w) rfl (by omega) hfin
          (Or.inr ⟨by omega, by omega, by omega, rfl⟩)
        refine ⟨StreamItem.int32 (orInt (i32 (orPack w (segGet seg pad) cell 0 k))
          (shlInt (segGet seg pad (cell + k)) (k * w))) :: words', ?_, ?_⟩
        · rw [hrec, List.append_assoc, List.singleton_append]
          congr 1
          rw [Prod.mk.injEq]
          refine ⟨?_, rfl⟩
          simp only [List.length_cons]
          push_cast
          ring
        · have hsplit : (N.toNat - cell) * w =
              (N.toNat - (cell + k) - 1) * w + (k + 1) * w := by
            rw [← Nat.add_mul]
            congr 1
            omega
          have hkw : (k + 1) * w = k * w + w := by ring
          simp only [List.length_cons, hlen]
          omega
  · -- split state: the pending value's high `offset` bits open the word
    have hcarry : offset + w ≤ 32 := by omega
    obtain ⟨k, hWrec, hb1, hb2⟩ := writeSegLoop_aligned w hw (segGet seg pad) 33 offset
      (cell + 1) (orInt 0 (asrInt (segGet seg pad cell) (w - offset))) (by omega)
      (by omega) (orInt_bounds _ _).1 (orInt_bounds _ _).2
    have hwi : writeSegLoop w (segGet seg pad) cell offset maskerE 0 34 =
        some (i32 (u32 (orInt 0 (asrInt (segGet seg pad cell) (w - offset))) |||
          orPack w (segGet seg pad) (cell + 1) offset k), cell + 1 + k,
          offset + k * w, 0) := by
      rw [show (34 : Nat) = 33 + 1 from rfl, writeSegLoop, if_pos hcarry]
      simp only [ne_eq]
      rw [if_pos hmene]
      exact hWrec
    rw [writeSegOuter, if_pos hcell]
    simp only [hwi]
    by_cases hfin : ((cell + 1 + k : Nat) : Int) ≥ N
    · rw [if_pos hfin]
      refine ⟨[StreamItem.int32 (i32 (u32 (orInt 0 (asrInt (segGet seg pad cell)
        (w - offset))) ||| orPack w (segGet seg pad) (cell + 1) offset k))], ?_, ?_⟩
      · norm_num
      · have hRk : N.toNat - cell - 1 ≤ k := by push_cast at hfin; omega
        have hRw : (N.toNat - cell - 1) * w ≤ k * w := Nat.mul_le_mul_right w hRk
        simp only [List.length_singleton]
        omega
    · rw [if_neg hfin]
      push_neg at hfin
      have hcellN1 : cell + 1 + k < N.toNat := by push_cast at hfin; omega
      by_cases h32 : offset + k * w = 32
      · rw [if_pos h32, if_pos h32, if_pos h32, h32,
          show (32 : Nat) % 32 = 0 by decide]
        obtain ⟨words', hrec, hlen⟩ := IH ((N.toNat - (cell + 1 + k)) * 33 + 0 + 1)
          (by omega) f (cell + 1 + k) 0 0 (bytes + 4)
          (out ++ [StreamItem.int32 (i32 (u32 (orInt 0 (asrInt (segGet seg pad cell)
            (w - offset))) ||| orPack w (segGet seg pad) (cell + 1) offset k))])
          ((N.toNat - (cell + 1 + k)) * w) rfl (by omega) hfin (Or.inl ⟨rfl, rfl, rfl⟩)
        refine ⟨StreamItem.int32 (i32 (u32 (orInt 0 (asrInt (segGet seg pad cell)
          (w - offset))) ||| orPack w (segGet seg pad) (cell + 1) offset k)) :: words',
          ?_, ?_⟩
        · rw [hrec, List.append_assoc, List.singleton_append]
          congr 1
          rw [Prod.mk.injEq]
          refine ⟨?_, rfl⟩
          simp only [List.length_cons]
          push_cast
          ring
        · have hsplit : (N.toNat - cell - 1) * w =
              (N.toNat - (cell + 1 + k)) * w + k * w := by
            rw [← Nat.add_mul]
            congr 1
            omega
          simp only [List.length_cons, hlen]
          omega
      · rw [if_neg h32, if_neg h32, if_neg h32,
          show (offset + k * w + w) % 32 = offset + k * w + w - 32 by omega]
        obtain ⟨words', hrec, hlen⟩ := IH
          ((N.toNat - (cell + 1 + k)) * 33 + (offset + k * w + w - 32) + 1) (by omega) f
          (cell + 1 + k) (offset + k * w + w - 32) (32 - (offset + k * w)) (bytes + 4)
          (out ++ [StreamItem.int32 (orInt (i32 (u32 (orInt 0 (asrInt
            (segGet seg pad cell) (w - offset))) |||
            orPack w (segGet seg pad) (cell + 1) offset k))
            (shlInt (segGet seg pad (cell + 1 + k)) (offset + k * w)))])
          ((offset + k * w + w - 32) + (N.toNat - (cell + 1 + k) - 1) * w) rfl (by omega)
          hfin (Or.inr ⟨by omega, by omega, by omega, rfl⟩)
        refine ⟨StreamItem.int32 (orInt (i32 (u32 (orInt 0 (asrInt
          (segGet seg pad cell) (w - offset))) |||
          orPack w (segGet seg pad) (cell + 1) offset k))
          (shlInt (segGet seg pad (cell + 1 + k)) (offset + k * w))) :: words', ?_, ?_⟩
        · rw [hrec, List.append_assoc, List.singleton_append]
          congr 1
          rw [Prod.mk.injEq]
          refine ⟨?_, rfl⟩
          simp only [List.length_cons]
          push_cast
          ring
        · have hsplit : (N.toNat - cell - 1) * w =
              (N.toNat - (cell + 1 + k) - 1) * w + (k + 1) * w := by
            rw [← Nat.add_mul]
            congr 1
            omega
          have hkw : (k + 1) * w = k * w + w := by ring
          simp only [List.length_cons, hlen]
          omega

lemma bitsPerSegment_val (S : Int) (h1 : 1 ≤ S) (h2 : S < 2147483648) :
    bitsPerSegment S = Nat.log2 S.toNat + 1 := by
  have hne : S.toNat ≠ 0 := by omega
  have hlt : Nat.log2 S.toNat < 31 := by
    rw [Nat.log2_lt hne]
    omega
  rw [bitsPerSegment, log2_eq_natLog2 S h1, Nat.mod_eq_of_lt (by omega)]

lemma bitsPerSegment_bounds (S : Int) (h1 : 1 ≤ S) (h2 : S < 2147483648) :
    1 ≤ bitsPerSegment S ∧ bitsPerSegment S ≤ 31 ∧ S ≤ 2 ^ bitsPerSegment S := by
  have hv := bitsPerSegment_val S h1 h2
  have hne : S.toNat ≠ 0 := by omega
  have hlt : Nat.log2 S.toNat < 31 := by
    rw [Nat.log2_lt hne]
    omega
  refine ⟨by omega, by omega, ?_⟩
  have hS : S.toNat < 2 ^ (Nat.log2 S.toNat + 1) := Nat.lt_log2_self
  have hSi : (S.toNat : Int) < ((2 ^ (Nat.log2 S.toNat + 1) : Nat) : Int) := by
    exact_mod_cast hS
  rw [Int.toNat_of_nonneg (by omega)] at hSi
  push_cast at hSi
  rw [hv]
  omega

/-- Claim C1 (amended): for vertex count N ≥ 1, a positive segment count in
int32 range, and a segmentation of length N with values in [0, S), decoding
the encoder's output (prefixed with the two header ints as the decoder reads
them) succeeds, consumes exactly the emitted words, returns the header
fields and matching byte counts, and recovers the original segmentation as a
prefix of the decoded values — the decoded list can be longer than N because
the decode loop pushes every field of the last word. -/
theorem WriteRead_segmentation_prefix (N S : Int) (seg : List Int) (pad : Nat → Int)
    (hN : 1 ≤ N) (hS : 1 ≤ S) (hS31 : S < 2147483648)
    (hlen : seg.length = N.toNat) (hin : ∀ v ∈ seg, 0 ≤ v ∧ v < S) :
    ∃ (words : List StreamItem) (r : ReadSegResult),
      WriteCompactSegmentation seg pad N S = some (4 * (words.length : Int), words) ∧
      ReadCompactSegmentation
          (StreamItem.int32 N :: StreamItem.int32 S :: words) = some r ∧
      r.ret = 8 + 4 * (words.length : Int) ∧
      r.numberOfVertices = N ∧ r.numberOfSegments = S ∧ r.rest = [] ∧
      N.toNat ≤ r.segmentation.length ∧
      r.segmentation.take N.toNat = seg := by
  obtain ⟨hw1, hw31, hSle⟩ := bitsPerSegment_bounds S hS hS31
  have hvals : ∀ i : Nat, (i : Int) < N → 0 ≤ segGet seg pad i ∧
      segGet seg pad i < 2 ^ bitsPerSegment S := by
    intro i hi
    have hilen : i < seg.length := by
      rw [hlen]
      omega
    have hmem : segGet seg pad i ∈ seg := by
      unfold segGet
      rw [List.get?_eq_get hilen]
      exact List.get_mem _ _ _
    obtain ⟨h0, h1⟩ := hin _ hmem
    exact ⟨h0, lt_of_lt_of_le h1 hSle⟩
  obtain ⟨words, pushes, hW, hR, hNle, hV⟩ := segSim (bitsPerSegment S) hw1 hw31 seg
    pad N hvals (N.toNat * 33 + 1) (33 * (N.toNat + 2)) (33 * (N.toNat + 2)) 0 0 0 0 0
    0 8 [] [] [] (by omega) (by omega) (by omega) (by omega) (Or.inl ⟨rfl, rfl, rfl⟩)
  simp only [List.nil_append, List.append_nil, zero_add, Nat.zero_add, Nat.cast_zero]
    at hW hR hNle hV
  refine ⟨words, ⟨8 + 4 * (words.length : Int), pushes, N, S, []⟩, ?_, ?_, rfl, rfl,
    rfl, rfl, ?_, ?_⟩
  · simp only [WriteCompactSegmentation]
    rw [if_neg (show ¬(32 < bitsPerSegment S) by omega)]
    exact hW
  · simp only [ReadCompactSegmentation, readInt]
    rw [if_neg (show ¬(bitsPerSegment S = 0) by omega),
      if_neg (show ¬(32 < bitsPerSegment S) by omega)]
    simp only [hR]
  · show N.toNat ≤ pushes.length
    have h := hNle
    push_cast at h
    omega
  · show pushes.take N.toNat = seg
    apply List.ext_get?
    intro n
    by_cases hn : n < N.toNat
    · rw [List.get?_take hn, hV n (by omega)]
      have hsg : seg.get? n = some (segGet seg pad n) := by
        unfold segGet
        rw [List.get?_eq_get (show n < seg.length by omega)]
      rw [hsg]
    · rw [List.get?_eq_none.mpr (by
          rw [List.length_take]
          omega),
        List.get?_eq_none.mpr (by omega)]

/-- Claim C1 counterexample: the claim's own example N = 20, S = 5 (w = 3).
The encoder packs ten 3-bit fields per word; the decoder decodes every field
of the final word, so it appends 21 values — the original 20 followed by a
zero — and does not recover the sequence exactly. -/
theorem WriteRead_segmentation_not_exact :
    WriteCompactSegmentation [0, 1, 2, 3, 4, 0, 1, 2, 3, 4, 0, 1, 2, 3, 4, 0, 1, 2, 3, 4]
        (fun _ => 0) 20 5 =
      some (8, [StreamItem.int32 591677064, StreamItem.int32 147919266]) ∧
    ReadCompactSegmentation
        [StreamItem.int32 20, StreamItem.int32 5, StreamItem.int32 591677064,
          StreamItem.int32 147919266] =
      some ⟨16, [0, 1, 2, 3, 4, 0, 1, 2, 3, 4, 0, 1, 2, 3, 4, 0, 1, 2, 3, 4, 0],
        20, 5, []⟩ ∧
    ([0, 1, 2, 3, 4, 0, 1, 2, 3, 4, 0, 1, 2, 3, 4, 0, 1, 2, 3, 4, 0] : List Int) ≠
      [0, 1, 2, 3, 4, 0, 1, 2, 3, 4, 0, 1, 2, 3, 4, 0, 1, 2, 3, 4] :=
  ⟨by decide, by decide, by decide⟩

theorem WriteRead_segmentation_prefix_witness :
    ∃ (words : List StreamItem) (r : ReadSegResult),
      WriteCompactSegmentation
          [0, 1, 2, 3, 4, 0, 1, 2, 3, 4, 0, 1, 2, 3, 4, 0, 1, 2, 3, 4]
          (fun _ => 0) 20 5 = some (4 * (words.length : Int), words) ∧
      ReadCompactSegmentation
          (StreamItem.int32 20 :: StreamItem.int32 5 :: words) = some r ∧
      r.ret = 8 + 4 * (words.length : Int) ∧
      r.numberOfVertices = 20 ∧ r.numberOfSegments = 5 ∧ r.rest = [] ∧
      (20 : Int).toNat ≤ r.segmentation.length ∧
      r.segmentation.take (20 : Int).toNat =
        [0, 1, 2, 3, 4, 0, 1, 2, 3, 4, 0, 1, 2, 3, 4, 0, 1, 2, 3, 4] :=
  WriteRead_segmentation_prefix 20 5
    [0, 1, 2, 3, 4, 0, 1, 2, 3, 4, 0, 1, 2, 3, 4, 0, 1, 2, 3, 4] (fun _ => 0)
    (by decide) (by decide) (by decide) (by decide) (by decide)

/-- Claim C5 (amended): for widths up to 16 bits (segment counts up to
65535), the encoder emits exactly `⌈N·w / 32⌉` words and returns 4 times
that count; for wider fields the skip iterations emit extra words. -/
theorem WriteCompactSegmentation_size (N S : Int) (seg : List Int) (pad : Nat → Int)
    (hN : 1 ≤ N) (hS : 1 ≤ S) (hS16 : S ≤ 65535) :
    ∃ words : List StreamItem,
      WriteCompactSegmentation seg pad N S = some (4 * (words.length : Int), words) ∧
      words.length = (N.toNat * bitsPerSegment S + 31) / 32 := by
  have hv := bitsPerSegment_val S hS (by omega)
  have hne : S.toNat ≠ 0 := by omega
  have h16 : (2 : Nat) ^ 16 = 65536 := by norm_num
  have hlt : Nat.log2 S.toNat < 16 := by
    rw [Nat.log2_lt hne]
    omega
  have hw1 : 1 ≤ bitsPerSegment S := by omega
  have hw16 : bitsPerSegment S ≤ 16 := by omega
  obtain ⟨words, hrec, hlen⟩ := writeSegOuter_count (bitsPerSegment S) hw1 hw16 seg pad
    N (N.toNat * 33 + 1) (33 * (N.toNat + 2)) 0 0 0 0 [] (N.toNat * bitsPerSegment S)
    (by omega) (by omega) (by omega)
    (Or.inl ⟨rfl, rfl, by rw [Nat.sub_zero]⟩)
  refine ⟨words, ?_, hlen⟩
  simp only [WriteCompactSegmentation]
  rw [if_neg (show ¬(32 < bitsPerSegment S) by omega)]
  simp only [List.nil_append, zero_add] at hrec
  exact hrec

/-- Claim C5 counterexample: S = 65536 gives w = 17; for N = 20 the formula
predicts ⌈20·17/32⌉ = 11 words (44 bytes), but the encoder's skip iterations
emit 12 words and it returns 48. -/
theorem WriteCompactSegmentation_size_17 :
    WriteCompactSegmentation (List.replicate 20 (0 : Int)) (fun _ => 0) 20 65536 =
      some (48, List.replicate 12 (StreamItem.int32 0)) ∧
    bitsPerSegment 65536 = 17 ∧
    (List.replicate 12 (StreamItem.int32 0)).length ≠
      ((20 : Int).toNat * bitsPerSegment 65536 + 31) / 32 :=
  ⟨by decide, by decide, by decide⟩

theorem WriteCompactSegmentation_size_witness :
    ∃ words : List StreamItem,
      WriteCompactSegmentation (List.replicate 40 (0 : Int)) (fun _ => 0) 40 1 =
        some (4 * (words.length : Int), words) ∧
      words.length = ((40 : Int).toNat * bitsPerSegment 1 + 31) / 32 :=
  WriteCompactSegmentation_size 40 1 (List.replicate 40 (0 : Int)) (fun _ => 0)
    (by decide) (by decide) (by decide)
